import Mathlib

/-!
Verification of the hierarchical canvas editor core: data model, edge hit
testing, selection resolution, constrained move/resize propagation and the
hierarchy queries, embedded shallowly from the TypeScript sources
(`canvasObjectUtils.ts`, `ConstraintCalculator.ts`, the hierarchy /
transform / selection managers and the custom resize hook).
Coordinates are modelled as rationals, element ids as naturals.
-/

namespace CanvasEditor

/-- An element of the canvas hierarchy.  This merges the fields of
`CanvasObject` (id, parentId, left, top, width, height) with the
hierarchy / interaction fields of `HierarchicalElement` (depth, zIndex,
selected, constraints.stayWithinParent).  The reserved `rotation` field is
`0` for every algorithm specified, so it is omitted. -/
structure Elem where
  id : ℕ
  parentId : Option ℕ
  left : ℚ
  top : ℚ
  width : ℚ
  height : ℚ
  depth : ℕ
  zIndex : ℤ
  stayWithinParent : Bool
  selected : Bool
  deriving DecidableEq, Repr

/-- `isPointNearObjectEdge` from `canvasObjectUtils.ts`: the point must be
inside the object's bounds and the minimum of the four edge distances must
be at most `edgeDistance`. -/
def isPointNearObjectEdge (x y : ℚ) (obj : Elem) (edgeDistance : ℚ) : Bool :=
  let objLeft := obj.left
  let objTop := obj.top
  let objRight := obj.left + obj.width
  let objBottom := obj.top + obj.height
  let isInsideObject : Bool :=
    decide (x ≥ objLeft) && decide (x ≤ objRight) &&
    decide (y ≥ objTop) && decide (y ≤ objBottom)
  if !isInsideObject then
    false
  else
    let distanceFromLeft := x - objLeft
    let distanceFromRight := objRight - x
    let distanceFromTop := y - objTop
    let distanceFromBottom := objBottom - y
    let minDistance :=
      min (min distanceFromLeft distanceFromRight)
        (min distanceFromTop distanceFromBottom)
    decide (minDistance ≤ edgeDistance)

/-- Modelled from the spec: the point lies inside the element's outer
rectangle, boundary inclusive. -/
def InsideOuterRect (x y : ℚ) (obj : Elem) : Prop :=
  obj.left ≤ x ∧ x ≤ obj.left + obj.width ∧
  obj.top ≤ y ∧ y ≤ obj.top + obj.height

/-- Modelled from the spec: the point is within distance `t` of at least
one of the four sides of the element's rectangle. -/
def WithinThresholdOfSomeSide (x y : ℚ) (obj : Elem) (t : ℚ) : Prop :=
  x - obj.left ≤ t ∨ (obj.left + obj.width) - x ≤ t ∨
  y - obj.top ≤ t ∨ (obj.top + obj.height) - y ≤ t

/-- A 100×100 element at the origin, used by the spec's concrete edge-test
cases. -/
def elemHundred : Elem :=
  { id := 0, parentId := none, left := 0, top := 0, width := 100,
    height := 100, depth := 0, zIndex := 1, stayWithinParent := true,
    selected := false }


/-! ### Hierarchy queries (`canvasObjectUtils.ts`, `HierarchyManager`) -/

/-- `getObjectDepth` from `canvasObjectUtils.ts`, with an explicit fuel
parameter standing for the implicit call-stack of the source's unguarded
recursion along `parentId` links. -/
def getObjectDepthF (objects : List Elem) : ℕ → ℕ → ℕ
  | 0, _ => 0
  | fuel + 1, id =>
    match objects.find? (fun o => o.id == id) with
    | none => 0
    | some obj =>
      match obj.parentId with
      | none => 0
      | some pid => 1 + getObjectDepthF objects fuel pid

/-- `getObjectDepth` at the canonical fuel, which suffices on every
acyclic store. -/
def getObjectDepth (id : ℕ) (objects : List Elem) : ℕ :=
  getObjectDepthF objects (objects.length + 1) id

/-- `getAllDescendants` from `canvasObjectUtils.ts`, with fuel standing
for the source's unguarded recursion into each child's subtree. -/
def getAllDescendantsF (objects : List Elem) : ℕ → ℕ → List Elem
  | 0, _ => []
  | fuel + 1, parentId =>
    let children := objects.filter (fun o => o.parentId == some parentId)
    children.flatMap (fun child => child :: getAllDescendantsF objects fuel child.id)

/-- `getAllDescendants` at the canonical fuel, which suffices on every
acyclic store. -/
def getAllDescendants (parentId : ℕ) (objects : List Elem) : List Elem :=
  getAllDescendantsF objects (objects.length + 1) parentId

/-- Depth of one element following its `parentId` chain (fuel-indexed);
this is `getObjectDepth` after the initial lookup has been resolved. -/
def elemDepthF (objects : List Elem) : ℕ → Elem → ℕ
  | 0, _ => 0
  | fuel + 1, o =>
    match o.parentId with
    | none => 0
    | some pid =>
      match objects.find? (fun e => e.id == pid) with
      | none => 1
      | some p => elemDepthF objects fuel p + 1

/-- The parent chain starting at `o` reaches a root (or a dangling
reference) within `fuel` steps. -/
def reachesRootF (objects : List Elem) : ℕ → Elem → Bool
  | 0, _ => false
  | fuel + 1, o =>
    match o.parentId with
    | none => true
    | some pid =>
      match objects.find? (fun e => e.id == pid) with
      | none => true
      | some p => reachesRootF objects fuel p

/-- The store is a well-formed forest: ids are unique and every parent
chain reaches a root.  This is the spec's invariant 1 in the form used as
a precondition by the hierarchy traversals. -/
def Forest (objects : List Elem) : Prop :=
  (objects.map (fun o => o.id)).Nodup ∧
  ∀ o ∈ objects, reachesRootF objects objects.length o = true

/-- Canonical depth of an element, used as a rank measure. -/
def rankOf (objects : List Elem) (o : Elem) : ℕ :=
  elemDepthF objects objects.length o

/-- `o` is a transitive descendant of the element with id `pid`:
its `parentId` chain inside `objects` reaches `pid`. -/
inductive IsDesc (objects : List Elem) (pid : ℕ) : Elem → Prop where
  | base : ∀ o, o ∈ objects → o.parentId = some pid → IsDesc objects pid o
  | step : ∀ o p, o ∈ objects → p ∈ objects → o.parentId = some p.id →
      IsDesc objects pid p → IsDesc objects pid o

/-! ### Boundary constraints and constrained movement
(`canvasObjectUtils.ts`, `ConstraintCalculator.ts`, `TransformManager`) -/

/-- The allowed outer envelope of an element, as four edge coordinates. -/
structure Bounds where
  minLeft : ℚ
  minTop : ℚ
  maxRight : ℚ
  maxBottom : ℚ
  deriving DecidableEq, Repr

/-- `getBoundaryConstraints` from `canvasObjectUtils.ts`: the parent's
rectangle if the target has one, otherwise the 800×600 canvas bounds. -/
def getBoundaryConstraints (targetObj : Elem) (objects : List Elem) : Bounds :=
  match targetObj.parentId.bind (fun pid => objects.find? (fun o => o.id == pid)) with
  | some parentObj =>
    { minLeft := parentObj.left
      minTop := parentObj.top
      maxRight := parentObj.left + parentObj.width
      maxBottom := parentObj.top + parentObj.height }
  | none =>
    { minLeft := 0, minTop := 0, maxRight := 800, maxBottom := 600 }

/-- The clamped candidate left edge of a move target: the clamping of
`handleObjectMoving` / `calculateMovementConstraints`, skipped when
`stayWithinParent` is false. -/
def constrainedLeft (objects : List Elem) (target : Elem) (dx : ℚ) : ℚ :=
  let bounds := getBoundaryConstraints target objects
  if target.stayWithinParent then
    max bounds.minLeft (min (target.left + dx) (bounds.maxRight - target.width))
  else target.left + dx

/-- The clamped candidate top edge of a move target. -/
def constrainedTop (objects : List Elem) (target : Elem) (dy : ℚ) : ℚ :=
  let bounds := getBoundaryConstraints target objects
  if target.stayWithinParent then
    max bounds.minTop (min (target.top + dy) (bounds.maxBottom - target.height))
  else target.top + dy

/-- `moveElementWithChildren` / `handleObjectMoving`: clamp the target's
candidate position, then translate the target and all of its descendants
by the single resulting delta.  An unknown id is a no-op. -/
def moveWithDescendants (objects : List Elem) (elementId : ℕ) (dx dy : ℚ) : List Elem :=
  match objects.find? (fun o => o.id == elementId) with
  | none => objects
  | some target =>
    let finalDeltaX := constrainedLeft objects target dx - target.left
    let finalDeltaY := constrainedTop objects target dy - target.top
    let descendantIds := (getAllDescendants elementId objects).map (fun o => o.id)
    objects.map (fun o =>
      if o.id == elementId || descendantIds.contains o.id then
        { o with left := o.left + finalDeltaX, top := o.top + finalDeltaY }
      else o)

/-- A whole drag session: a sequence of `moveWithDescendants` calls. -/
def applyMoves (objects : List Elem) (moves : List (ℕ × ℚ × ℚ)) : List Elem :=
  moves.foldl (fun st m => moveWithDescendants st m.1 m.2.1 m.2.2) objects

/-- Rectangle containment: all four edges of `e` lie within `p`'s edges. -/
def Inside (e p : Elem) : Prop :=
  p.left ≤ e.left ∧ p.top ≤ e.top ∧
  e.left + e.width ≤ p.left + p.width ∧ e.top + e.height ≤ p.top + p.height

/-- The spec's at-rest invariant 4: every element is contained in its
parent's rectangle. -/
def ParentContained (objects : List Elem) : Prop :=
  ∀ e ∈ objects, ∀ p ∈ objects, e.parentId = some p.id → Inside e p

/-! ### Render order and point selection (`HierarchyManager`,
`EdgeDetector.getTopElementAtEdge`, `SelectionManager.selectAtPoint`) -/

/-- The comparator of `getElementsInRenderOrder`: depth ascending, then
zIndex ascending. -/
def RenderLE (a b : Elem) : Prop :=
  a.depth < b.depth ∨ (a.depth = b.depth ∧ a.zIndex ≤ b.zIndex)

instance : DecidableRel RenderLE := fun a b => by
  unfold RenderLE; infer_instance

instance : IsTotal Elem RenderLE where
  total a b := by
    unfold RenderLE
    rcases Nat.lt_trichotomy a.depth b.depth with h | h | h
    · exact Or.inl (Or.inl h)
    · rcases le_total a.zIndex b.zIndex with h' | h'
      · exact Or.inl (Or.inr ⟨h, h'⟩)
      · exact Or.inr (Or.inr ⟨h.symm, h'⟩)
    · exact Or.inr (Or.inl h)

instance : IsTrans Elem RenderLE where
  trans a b c hab hbc := by
    unfold RenderLE at *
    rcases hab with h | ⟨h1, h2⟩ <;> rcases hbc with h' | ⟨h1', h2'⟩
    · exact Or.inl (h.trans h')
    · exact Or.inl (h1' ▸ h)
    · exact Or.inl (h1 ▸ h')
    · exact Or.inr ⟨h1.trans h1', h2.trans h2'⟩

/-- `getElementsInRenderOrder`: a stable sort of the store by
(depth, zIndex) ascending, painted back-to-front. -/
def getElementsInRenderOrder (objects : List Elem) : List Elem :=
  List.insertionSort RenderLE objects

/-- `EdgeDetector.getTopElementAtEdge`: the first element of the given
list whose edge zone contains the point. -/
def getTopElementAtEdge (x y : ℚ) (elements : List Elem) : Option Elem :=
  elements.find? (fun o => isPointNearObjectEdge x y o 10)

/-- `SelectionManager.selectAtPoint`: test the reversed render order, and
either select the hit (clearing the previous selection flag) or clear the
selection entirely.  Returns the selected element and the updated store. -/
def selectAtPoint (objects : List Elem) (x y : ℚ) : Option Elem × List Elem :=
  let elements := (getElementsInRenderOrder objects).reverse
  match getTopElementAtEdge x y elements with
  | some target =>
    (some target, objects.map (fun o => { o with selected := o.id == target.id }))
  | none =>
    (none, objects.map (fun o => { o with selected := false }))

/-! ### Children bounding box and custom resize
(`canvasObjectUtils.ts`, `useCanvasObjectManipulation`) -/

/-- Axis-aligned bounding box of the direct children, as edge
coordinates. -/
structure ChildBounds where
  minLeft : ℚ
  minTop : ℚ
  maxRight : ℚ
  maxBottom : ℚ
  deriving DecidableEq, Repr

/-- `getChildrenBoundingBox` from `canvasObjectUtils.ts`: `none` when the
element has no direct children. -/
def getChildrenBoundingBox (parentId : ℕ) (objects : List Elem) : Option ChildBounds :=
  match objects.filter (fun o => o.parentId == some parentId) with
  | [] => none
  | c :: cs =>
    some
      { minLeft := cs.foldl (fun m o => min m o.left) c.left
        minTop := cs.foldl (fun m o => min m o.top) c.top
        maxRight := cs.foldl (fun m o => max m (o.left + o.width)) (c.left + c.width)
        maxBottom := cs.foldl (fun m o => max m (o.top + o.height)) (c.top + c.height) }

/-- A rectangle as carried by the custom-resize state (`startDims` and the
fabric object's live dimensions). -/
structure Dims where
  left : ℚ
  top : ℚ
  width : ℚ
  height : ℚ
  deriving DecidableEq, Repr

/-- The eight resize handles of `updateCustomResize`. -/
inductive Handle where
  | tl | tr | bl | br | ml | mr | mt | mb
  deriving DecidableEq, Repr

/-- `updateCustomResize` from the custom resize hook: compute the new
dimensions for the resize target from the pointer delta, the child
bounding box clamps, the minimum size and the boundary constraints of the
handle's dragged edges.  Returns `none` when the target id is unknown. -/
def updateCustomResize (objects : List Elem) (objectId : ℕ) (startDims : Dims)
    (handle : Handle) (startPointer pointer : ℚ × ℚ) : Option Dims :=
  match objects.find? (fun o => o.id == objectId) with
  | none => none
  | some obj =>
    let constraints := getBoundaryConstraints obj objects
    let minSize : ℚ := 20
    let dx := pointer.1 - startPointer.1
    let dy := pointer.2 - startPointer.2
    let childBounds := getChildrenBoundingBox objectId objects
    -- first switch: handle-specific candidate dimensions with child clamps
    let s1 : Dims :=
      match handle with
      | .tl =>
        let newLeft0 := startDims.left + dx
        let newTop0 := startDims.top + dy
        let newLeft :=
          match childBounds with
          | some cb => if newLeft0 > cb.minLeft then cb.minLeft else newLeft0
          | none => newLeft0
        let newTop :=
          match childBounds with
          | some cb => if newTop0 > cb.minTop then cb.minTop else newTop0
          | none => newTop0
        ⟨newLeft, newTop, startDims.left + startDims.width - newLeft,
          startDims.top + startDims.height - newTop⟩
      | .tr =>
        let newTop0 := startDims.top + dy
        let newWidth0 := startDims.width + dx
        let newTop :=
          match childBounds with
          | some cb => if newTop0 > cb.minTop then cb.minTop else newTop0
          | none => newTop0
        let newWidth :=
          match childBounds with
          | some cb =>
            if startDims.left + newWidth0 < cb.maxRight then cb.maxRight - startDims.left
            else newWidth0
          | none => newWidth0
        ⟨startDims.left, newTop, newWidth, startDims.top + startDims.height - newTop⟩
      | .bl =>
        let newLeft0 := startDims.left + dx
        let newHeight0 := startDims.height + dy
        let newLeft :=
          match childBounds with
          | some cb => if newLeft0 > cb.minLeft then cb.minLeft else newLeft0
          | none => newLeft0
        let newHeight :=
          match childBounds with
          | some cb =>
            if startDims.top + newHeight0 < cb.maxBottom then cb.maxBottom - startDims.top
            else newHeight0
          | none => newHeight0
        ⟨newLeft, startDims.top, startDims.left + startDims.width - newLeft, newHeight⟩
      | .br =>
        let newWidth0 := startDims.width + dx
        let newHeight0 := startDims.height + dy
        let newWidth :=
          match childBounds with
          | some cb =>
            if startDims.left + newWidth0 < cb.maxRight then cb.maxRight - startDims.left
            else newWidth0
          | none => newWidth0
        let newHeight :=
          match childBounds with
          | some cb =>
            if startDims.top + newHeight0 < cb.maxBottom then cb.maxBottom - startDims.top
            else newHeight0
          | none => newHeight0
        ⟨startDims.left, startDims.top, newWidth, newHeight⟩
      | .ml =>
        let newLeft0 := startDims.left + dx
        let newLeft :=
          match childBounds with
          | some cb => if newLeft0 > cb.minLeft then cb.minLeft else newLeft0
          | none => newLeft0
        ⟨newLeft, startDims.top, startDims.left + startDims.width - newLeft,
          startDims.height⟩
      | .mr =>
        let newWidth0 := startDims.width + dx
        let newWidth :=
          match childBounds with
          | some cb =>
            if startDims.left + newWidth0 < cb.maxRight then cb.maxRight - startDims.left
            else newWidth0
          | none => newWidth0
        ⟨startDims.left, startDims.top, newWidth, startDims.height⟩
      | .mt =>
        let newTop0 := startDims.top + dy
        let newTop :=
          match childBounds with
          | some cb => if newTop0 > cb.minTop then cb.minTop else newTop0
          | none => newTop0
        ⟨startDims.left, newTop, startDims.width, startDims.top + startDims.height - newTop⟩
      | .mb =>
        let newHeight0 := startDims.height + dy
        let newHeight :=
          match childBounds with
          | some cb =>
            if startDims.top + newHeight0 < cb.maxBottom then cb.maxBottom - startDims.top
            else newHeight0
          | none => newHeight0
        ⟨startDims.left, startDims.top, startDims.width, newHeight⟩
    -- step 1: enforce minimum size first
    let s2 : Dims := { s1 with width := max minSize s1.width, height := max minSize s1.height }
    -- step 2: boundary constraints per handle direction
    let s3 : Dims :=
      match handle with
      | .tl =>
        let newLeft := max constraints.minLeft s2.left
        let newTop := max constraints.minTop s2.top
        let newWidth := startDims.left + startDims.width - newLeft
        let newHeight := startDims.top + startDims.height - newTop
        let lw : ℚ × ℚ :=
          if newWidth < minSize then
            (startDims.left + startDims.width - minSize, minSize)
          else (newLeft, newWidth)
        let th : ℚ × ℚ :=
          if newHeight < minSize then
            (startDims.top + startDims.height - minSize, minSize)
          else (newTop, newHeight)
        ⟨lw.1, th.1, lw.2, th.2⟩
      | .tr =>
        let newTop := max constraints.minTop s2.top
        let newWidth := min s2.width (constraints.maxRight - s2.left)
        let newHeight := startDims.top + startDims.height - newTop
        let th : ℚ × ℚ :=
          if newHeight < minSize then
            (startDims.top + startDims.height - minSize, minSize)
          else (newTop, newHeight)
        ⟨s2.left, th.1, max minSize newWidth, th.2⟩
      | .bl =>
        let newLeft := max constraints.minLeft s2.left
        let newHeight := min s2.height (constraints.maxBottom - s2.top)
        let newWidth := startDims.left + startDims.width - newLeft
        let lw : ℚ × ℚ :=
          if newWidth < minSize then
            (startDims.left + startDims.width - minSize, minSize)
          else (newLeft, newWidth)
        ⟨lw.1, s2.top, lw.2, max minSize newHeight⟩
      | .br =>
        let newWidth := min s2.width (constraints.maxRight - s2.left)
        let newHeight := min s2.height (constraints.maxBottom - s2.top)
        ⟨s2.left, s2.top, max minSize newWidth, max minSize newHeight⟩
      | .ml =>
        let newLeft := max constraints.minLeft s2.left
        let newWidth := startDims.left + startDims.width - newLeft
        let lw : ℚ × ℚ :=
          if newWidth < minSize then
            (startDims.left + startDims.width - minSize, minSize)
          else (newLeft, newWidth)
        ⟨lw.1, s2.top, lw.2, s2.height⟩
      | .mr =>
        let newWidth := min s2.width (constraints.maxRight - s2.left)
        ⟨s2.left, s2.top, max minSize newWidth, s2.height⟩
      | .mt =>
        let newTop := max constraints.minTop s2.top
        let newHeight := startDims.top + startDims.height - newTop
        let th : ℚ × ℚ :=
          if newHeight < minSize then
            (startDims.top + startDims.height - minSize, minSize)
          else (newTop, newHeight)
        ⟨s2.left, th.1, s2.width, th.2⟩
      | .mb =>
        let newHeight := min s2.height (constraints.maxBottom - s2.top)
        ⟨s2.left, s2.top, s2.width, max minSize newHeight⟩
    some s3

/-- `endCustomResize`: commit the resized dimensions to the store entry of
the resize target, leaving every other entry untouched. -/
def endCustomResize (objects : List Elem) (objectId : ℕ) (d : Dims) : List Elem :=
  objects.map (fun obj =>
    if obj.id == objectId then
      { obj with left := d.left, top := d.top, width := d.width, height := d.height }
    else obj)

/-- A full resize step: compute the constrained dimensions and commit
them; unknown ids leave the store unchanged. -/
def commitCustomResize (objects : List Elem) (objectId : ℕ) (startDims : Dims)
    (handle : Handle) (startPointer pointer : ℚ × ℚ) : List Elem :=
  match updateCustomResize objects objectId startDims handle startPointer pointer with
  | none => objects
  | some d => endCustomResize objects objectId d

/-! ### Drag selection (`canvasObjectUtils.ts`, `SelectionManager`) -/

/-- The drag rectangle, as carried by `getObjectsInSelectionBounds`. -/
structure SelRect where
  left : ℚ
  top : ℚ
  right : ℚ
  bottom : ℚ
  deriving DecidableEq, Repr

/-- `getObjectsInSelectionBounds`: the candidates of a drag selection. -/
def getObjectsInSelectionBounds (selectionBounds : SelRect) (objects : List Elem) :
    List Elem :=
  objects.filter (fun obj =>
    decide (obj.left ≥ selectionBounds.left) &&
    decide (obj.top ≥ selectionBounds.top) &&
    decide (obj.left + obj.width ≤ selectionBounds.right) &&
    decide (obj.top + obj.height ≤ selectionBounds.bottom))

/-- Modelled from the spec: all four corners of the element's rectangle
lie within the drag rectangle, bounds inclusive. -/
def CornersInRect (obj : Elem) (r : SelRect) : Prop :=
  ∀ c ∈ [(obj.left, obj.top), (obj.left + obj.width, obj.top),
      (obj.left + obj.width, obj.top + obj.height),
      (obj.left, obj.top + obj.height)],
    r.left ≤ c.1 ∧ c.1 ≤ r.right ∧ r.top ≤ c.2 ∧ c.2 ≤ r.bottom

/-- `findMostParentObject`, lowest-depth variant: the candidate with the
strictly smallest `getObjectDepth`, first one winning ties. -/
def findMostParentObject (objectsInSelection objects : List Elem) : Option Elem :=
  objectsInSelection.foldl
    (fun acc obj =>
      match acc with
      | none => some obj
      | some best =>
        if getObjectDepth obj.id objects < getObjectDepth best.id objects then some obj
        else acc)
    none

/-- `findMostParentObject`, parent-not-in-set variant: the first candidate
whose parent is not itself a candidate, falling back to the first
candidate. -/
def findMostParentObjectTopLevel (objectsInSelection : List Elem) : Option Elem :=
  match objectsInSelection with
  | [] => none
  | first :: _ =>
    let selectionIds := objectsInSelection.map (fun o => o.id)
    let topLevelObjects := objectsInSelection.filter (fun obj =>
      match obj.parentId with
      | none => true
      | some pid => !(selectionIds.contains pid))
    match topLevelObjects with
    | t :: _ => some t
    | [] => some first

/-- Drag selection: filter the fully contained candidates, then resolve
to the most-parent candidate. -/
def selectByDrag (selectionBounds : SelRect) (objects : List Elem) : Option Elem :=
  findMostParentObject (getObjectsInSelectionBounds selectionBounds objects) objects

/-! ### Element creation (`HierarchyManager.createElement`) -/

/-- The creation-time properties the caller may override. -/
structure ElemProps where
  position : Option (ℚ × ℚ)
  size : Option (ℚ × ℚ)
  deriving DecidableEq, Repr

/-- The only hard failure of the public API. -/
inductive CreateError where
  | parentNotFound
  deriving DecidableEq, Repr

/-- `HierarchyManager.createElement` (throwing variant): reject a
non-null `parentId` that does not resolve; otherwise compute depth and
zIndex from the parent and siblings and insert the element. -/
def createElement (objects : List Elem) (id : ℕ) (parentId : Option ℕ)
    (props : ElemProps) : Except CreateError (Elem × List Elem) :=
  let parent := parentId.bind (fun pid => objects.find? (fun o => o.id == pid))
  match parentId, parent with
  | some _, none => .error .parentNotFound
  | _, _ =>
    let depth := match parent with
      | some p => p.depth + 1
      | none => 0
    let siblings := objects.filter (fun o => o.parentId == parentId)
    let maxZIndex := siblings.foldl (fun m s => max m s.zIndex) 0
    let element : Elem :=
      { id := id
        parentId := parentId
        left := (props.position.getD (0, 0)).1
        top := (props.position.getD (0, 0)).2
        width := (props.size.getD (100, 100)).1
        height := (props.size.getD (100, 100)).2
        depth := depth
        zIndex := maxZIndex + 1
        stayWithinParent := true
        selected := false }
    .ok (element, objects ++ [element])

/-! ### Concrete stores used by the witnesses and examples -/

/-- A two-element cycle: each element is the other's parent.  Used to show
the hierarchy traversals have no cycle guard. -/
def cyclicPair : List Elem :=
  [{ id := 0, parentId := some 1, left := 0, top := 0, width := 10, height := 10,
     depth := 0, zIndex := 1, stayWithinParent := true, selected := false },
   { id := 1, parentId := some 0, left := 0, top := 0, width := 10, height := 10,
     depth := 0, zIndex := 2, stayWithinParent := true, selected := false }]


/-- A three-element chain blue ⊃ orange ⊃ purple, matching the demo
store. -/
def chainStore : List Elem :=
  [{ id := 1, parentId := none, left := 100, top := 100, width := 300, height := 200,
     depth := 0, zIndex := 1, stayWithinParent := true, selected := false },
   { id := 2, parentId := some 1, left := 120, top := 120, width := 150, height := 100,
     depth := 1, zIndex := 1, stayWithinParent := true, selected := false },
   { id := 3, parentId := some 2, left := 140, top := 140, width := 80, height := 60,
     depth := 2, zIndex := 1, stayWithinParent := true, selected := false }]

/-- The chain store after `moveWithDescendants chainStore 1 500 0`: the root's
candidate left edge 600 is clamped to the canvas at 500, and the whole subtree
is translated by the resulting delta (400, 0). -/
def chainStoreMoved1 : List Elem :=
  [{ id := 1, parentId := none, left := 500, top := 100, width := 300, height := 200,
     depth := 0, zIndex := 1, stayWithinParent := true, selected := false },
   { id := 2, parentId := some 1, left := 520, top := 120, width := 150, height := 100,
     depth := 1, zIndex := 1, stayWithinParent := true, selected := false },
   { id := 3, parentId := some 2, left := 540, top := 140, width := 80, height := 60,
     depth := 2, zIndex := 1, stayWithinParent := true, selected := false }]

/-- The chain store after the further call
`moveWithDescendants chainStoreMoved1 2 (-40) 10`: the middle element's
candidate left edge 480 is clamped to its parent at 500, and its subtree is
translated by the resulting delta (−20, 10). -/
def chainStoreMoved2 : List Elem :=
  [{ id := 1, parentId := none, left := 500, top := 100, width := 300, height := 200,
     depth := 0, zIndex := 1, stayWithinParent := true, selected := false },
   { id := 2, parentId := some 1, left := 500, top := 130, width := 150, height := 100,
     depth := 1, zIndex := 1, stayWithinParent := true, selected := false },
   { id := 3, parentId := some 2, left := 520, top := 150, width := 80, height := 60,
     depth := 2, zIndex := 1, stayWithinParent := true, selected := false }]

/-- First root of the two-subtree divergence example. -/
def divR1 : Elem :=
  { id := 20, parentId := none, left := 0, top := 0, width := 50, height := 50,
    depth := 0, zIndex := 1, stayWithinParent := true, selected := false }

/-- Second root of the two-subtree divergence example. -/
def divR2 : Elem :=
  { id := 21, parentId := none, left := 200, top := 0, width := 100, height := 100,
    depth := 0, zIndex := 2, stayWithinParent := true, selected := false }

/-- Child of `divR2` in the divergence example. -/
def divC : Elem :=
  { id := 22, parentId := some 21, left := 210, top := 10, width := 50, height := 50,
    depth := 1, zIndex := 1, stayWithinParent := true, selected := false }

/-- The store of the two-subtree divergence example. -/
def divObjects : List Elem := [divR1, divR2, divC]

/-- Two overlapping same-depth elements; `selB` has the higher zIndex. -/
def selA : Elem :=
  { id := 10, parentId := none, left := 0, top := 0, width := 100, height := 100,
    depth := 0, zIndex := 1, stayWithinParent := true, selected := false }

/-- See `selA`. -/
def selB : Elem :=
  { id := 11, parentId := none, left := 0, top := 0, width := 100, height := 100,
    depth := 0, zIndex := 2, stayWithinParent := true, selected := false }

/-- The two-element store of the z-order tie-break example. -/
def selW : List Elem := [selA, selB]

/-! ### Theorems -/

/-! #### Store lookup facts -/

theorem eq_of_mem_of_id_eq {objects : List Elem}
    (hn : (objects.map (fun o => o.id)).Nodup) {a b : Elem}
    (ha : a ∈ objects) (hb : b ∈ objects) (hid : a.id = b.id) : a = b :=
  List.inj_on_of_nodup_map hn ha hb hid

theorem find_id_eq_some_of_mem {objects : List Elem}
    (hn : (objects.map (fun o => o.id)).Nodup) {o : Elem} (ho : o ∈ objects) :
    objects.find? (fun e => e.id == o.id) = some o := by
  cases hf : objects.find? (fun e => e.id == o.id) with
  | none =>
    rw [List.find?_eq_none] at hf
    exact absurd (by simp : (fun e => e.id == o.id) o = true) (hf o ho)
  | some c =>
    have hc : c ∈ objects := List.mem_of_find?_eq_some hf
    have hcid : c.id = o.id := by simpa using List.find?_some hf
    rw [eq_of_mem_of_id_eq hn hc ho hcid]

/-! #### Stabilisation of the parent-chain walks under acyclicity -/

theorem reachesRootF_mono_eq {objects : List Elem} :
    ∀ {f : ℕ} {o : Elem}, reachesRootF objects f o = true →
      ∀ {g : ℕ}, f ≤ g →
        reachesRootF objects g o = true ∧
        elemDepthF objects g o = elemDepthF objects f o := by
  intro f
  induction f with
  | zero => intro o h; simp [reachesRootF] at h
  | succ f ih =>
    intro o h g hg
    obtain ⟨g, rfl⟩ : ∃ k, g = k + 1 := ⟨g - 1, by omega⟩
    cases hp : o.parentId with
    | none => simp [reachesRootF, elemDepthF, hp]
    | some pid =>
      cases hf : objects.find? (fun e => e.id == pid) with
      | none => simp [reachesRootF, elemDepthF, hp, hf]
      | some p =>
        simp only [reachesRootF, elemDepthF, hp, hf] at h ⊢
        have hstep := ih h (Nat.le_of_succ_le_succ hg)
        exact ⟨hstep.1, by rw [hstep.2]⟩

theorem elemDepthF_le_fuel (objects : List Elem) :
    ∀ (f : ℕ) (o : Elem), elemDepthF objects f o ≤ f := by
  intro f
  induction f with
  | zero => intro o; simp [elemDepthF]
  | succ f ih =>
    intro o
    cases hp : o.parentId with
    | none => simp [elemDepthF, hp]
    | some pid =>
      cases hf : objects.find? (fun e => e.id == pid) with
      | none => simp [elemDepthF, hp, hf]
      | some p =>
        simp only [elemDepthF, hp, hf]
        exact Nat.succ_le_succ (ih p)

theorem rankOf_le_length (objects : List Elem) (o : Elem) :
    rankOf objects o ≤ objects.length :=
  elemDepthF_le_fuel objects objects.length o

theorem rankOf_parent {objects : List Elem} (hF : Forest objects) {c q : Elem}
    (hc : c ∈ objects) (hq : q ∈ objects) (hpar : c.parentId = some q.id) :
    rankOf objects c = rankOf objects q + 1 := by
  obtain ⟨hn, hreach⟩ := hF
  obtain ⟨n, hnn⟩ : ∃ n, objects.length = n + 1 :=
    ⟨objects.length - 1, by
      have : 0 < objects.length := List.length_pos.mpr (fun he => by simp [he] at hc)
      omega⟩
  have hfind := find_id_eq_some_of_mem hn hq
  have hrc := hreach c hc
  rw [hnn] at hrc
  simp only [reachesRootF, hpar, hfind] at hrc
  have hL : elemDepthF objects (n + 1) c = elemDepthF objects n q + 1 := by
    simp [elemDepthF, hpar, hfind]
  unfold rankOf
  rw [hnn, hL, (reachesRootF_mono_eq hrc (Nat.le_succ n)).2]

theorem rankOf_eq_of_same_parent {objects : List Elem} (hF : Forest objects)
    {c1 c2 : Elem} {pid : ℕ} (h1 : c1 ∈ objects) (h2 : c2 ∈ objects)
    (hp1 : c1.parentId = some pid) (hp2 : c2.parentId = some pid) :
    rankOf objects c1 = rankOf objects c2 := by
  cases hf : objects.find? (fun e => e.id == pid) with
  | none =>
    obtain ⟨n, hnn⟩ : ∃ n, objects.length = n + 1 :=
      ⟨objects.length - 1, by
        have : 0 < objects.length := List.length_pos.mpr (fun he => by simp [he] at h1)
        omega⟩
    unfold rankOf
    rw [hnn]
    simp [elemDepthF, hp1, hp2, hf]
  | some p =>
    have hpmem := List.mem_of_find?_eq_some hf
    have hpid : p.id = pid := by simpa using List.find?_some hf
    rw [rankOf_parent hF h1 hpmem (by rw [hpid]; exact hp1),
      rankOf_parent hF h2 hpmem (by rw [hpid]; exact hp2)]

/-! #### Descendant traversal: stabilisation, membership, uniqueness -/

theorem flatMap_congr_mem {α β : Type} {l : List α} {f g : α → List β}
    (h : ∀ a ∈ l, f a = g a) : l.flatMap f = l.flatMap g := by
  induction l with
  | nil => rfl
  | cons a as ih =>
    simp only [List.flatMap_cons]
    rw [h a (List.mem_cons_self a as), ih (fun b hb => h b (List.mem_cons_of_mem a hb))]

theorem getAllDescendantsF_stab {objects : List Elem} (hF : Forest objects) :
    ∀ (fuel : ℕ) (pid : ℕ),
      (∀ c ∈ objects, c.parentId = some pid →
        objects.length - rankOf objects c < fuel) →
      getAllDescendantsF objects fuel pid = getAllDescendantsF objects (fuel + 1) pid := by
  intro fuel
  induction fuel with
  | zero =>
    intro pid h
    have hnil : objects.filter (fun o => o.parentId == some pid) = [] := by
      rw [List.filter_eq_nil_iff]
      intro c hc hpc
      have := h c hc (by simpa using hpc)
      omega
    simp [getAllDescendantsF, hnil]
  | succ fuel ih =>
    intro pid h
    simp only [getAllDescendantsF]
    apply flatMap_congr_mem
    intro c hc
    have hcmem : c ∈ objects := (List.mem_filter.mp hc).1
    have hcpar : c.parentId = some pid := by
      simpa using (List.mem_filter.mp hc).2
    have hrec : ∀ q ∈ objects, q.parentId = some c.id →
        objects.length - rankOf objects q < fuel := by
      intro q hq hpq
      have h1 := rankOf_parent hF hq hcmem hpq
      have h2 := rankOf_le_length objects q
      have h3 := h c hcmem hcpar
      omega
    rw [ih c.id hrec]
    rfl

theorem getAllDescendantsF_stab_ge {objects : List Elem} (hF : Forest objects) :
    ∀ (fuel : ℕ), objects.length + 1 ≤ fuel → ∀ (pid : ℕ),
      getAllDescendantsF objects fuel pid = getAllDescendants pid objects := by
  intro fuel
  induction fuel with
  | zero => omega
  | succ f ih =>
    intro hfu pid
    rcases Nat.eq_or_lt_of_le hfu with heq | hlt
    · rw [getAllDescendants, heq]
    · have hf' : objects.length + 1 ≤ f := by omega
      rw [← getAllDescendantsF_stab hF f pid
        (fun c hc hp => by have := rankOf_le_length objects c; omega)]
      exact ih hf' pid

theorem IsDesc.lift {objects : List Elem} {pid : ℕ} {c o : Elem}
    (h : IsDesc objects c.id o) (hc : c ∈ objects) (hpc : c.parentId = some pid) :
    IsDesc objects pid o := by
  induction h with
  | base o2 ho2 hp2 => exact .step o2 c ho2 hc hp2 (.base c hc hpc)
  | step o2 p2 ho2 hpmem hpar hdesc ih => exact .step o2 p2 ho2 hpmem hpar ih

theorem mem_getAllDescendantsF {objects : List Elem} :
    ∀ {fuel : ℕ} {pid : ℕ} {o : Elem}, o ∈ getAllDescendantsF objects fuel pid →
      o ∈ objects ∧ IsDesc objects pid o := by
  intro fuel
  induction fuel with
  | zero => intro pid o h; simp [getAllDescendantsF] at h
  | succ fuel ih =>
    intro pid o h
    simp only [getAllDescendantsF, List.mem_flatMap] at h
    obtain ⟨c, hc, ho⟩ := h
    have hcmem : c ∈ objects := (List.mem_filter.mp hc).1
    have hcpar : c.parentId = some pid := by
      simpa using (List.mem_filter.mp hc).2
    rcases List.mem_cons.mp ho with rfl | ho'
    · exact ⟨hcmem, .base o hcmem hcpar⟩
    · obtain ⟨homem, hdesc⟩ := ih ho'
      exact ⟨homem, hdesc.lift hcmem hcpar⟩

theorem getAllDescendantsF_mono {objects : List Elem} :
    ∀ {f : ℕ} {g : ℕ}, f ≤ g → ∀ (pid : ℕ) (o : Elem),
      o ∈ getAllDescendantsF objects f pid → o ∈ getAllDescendantsF objects g pid := by
  intro f
  induction f with
  | zero => intro g hg pid o h; simp [getAllDescendantsF] at h
  | succ f ih =>
    intro g hg pid o h
    obtain ⟨g, rfl⟩ : ∃ k, g = k + 1 := ⟨g - 1, by omega⟩
    simp only [getAllDescendantsF, List.mem_flatMap] at h ⊢
    obtain ⟨c, hc, ho⟩ := h
    refine ⟨c, hc, ?_⟩
    rcases List.mem_cons.mp ho with rfl | ho'
    · exact List.mem_cons_self _ _
    · exact List.mem_cons_of_mem _ (ih (Nat.le_of_succ_le_succ hg) c.id o ho')

theorem getAllDescendantsF_child_closed {objects : List Elem} :
    ∀ {fuel : ℕ} {pid : ℕ} {p o : Elem},
      p ∈ getAllDescendantsF objects fuel pid → o ∈ objects →
      o.parentId = some p.id →
      o ∈ getAllDescendantsF objects (fuel + 1) pid := by
  intro fuel
  induction fuel with
  | zero => intro pid p o h; simp [getAllDescendantsF] at h
  | succ fuel ih =>
    intro pid p o h homem hopar
    simp only [getAllDescendantsF, List.mem_flatMap] at h ⊢
    obtain ⟨c, hc, hp⟩ := h
    refine ⟨c, hc, ?_⟩
    rcases List.mem_cons.mp hp with heq | hp'
    · refine List.mem_cons_of_mem _ ?_
      show o ∈ getAllDescendantsF objects (fuel + 1) c.id
      simp only [getAllDescendantsF, List.mem_flatMap]
      refine ⟨o, List.mem_filter.mpr ⟨homem, ?_⟩, List.mem_cons_self _ _⟩
      rw [hopar, heq]
      simp
    · exact List.mem_cons_of_mem _ (ih hp' homem hopar)

theorem IsDesc.mem_getAllDescendants {objects : List Elem} (hF : Forest objects)
    {pid : ℕ} {o : Elem} (h : IsDesc objects pid o) :
    o ∈ getAllDescendants pid objects := by
  have hex : ∃ fuel, o ∈ getAllDescendantsF objects fuel pid := by
    induction h with
    | base o2 ho2 hp2 =>
      refine ⟨1, ?_⟩
      simp only [getAllDescendantsF, List.mem_flatMap]
      exact ⟨o2, List.mem_filter.mpr ⟨ho2, by simp [hp2]⟩, List.mem_cons_self _ _⟩
    | step o2 p2 ho2 hpmem hpar hdesc ih =>
      obtain ⟨fuel, hf⟩ := ih
      exact ⟨fuel + 1, getAllDescendantsF_child_closed hf ho2 hpar⟩
  obtain ⟨fuel, hf⟩ := hex
  rcases le_total fuel (objects.length + 1) with hle | hge
  · exact getAllDescendantsF_mono hle pid o hf
  · rw [getAllDescendantsF_stab_ge hF fuel hge pid] at hf
    exact hf

theorem IsDesc.rankOf_gt {objects : List Elem} (hF : Forest objects) {tid : ℕ}
    {o : Elem} (h : IsDesc objects tid o) {t : Elem} (ht : t ∈ objects)
    (hid : t.id = tid) : rankOf objects t < rankOf objects o := by
  induction h with
  | base o2 ho2 hp2 =>
    have := rankOf_parent hF ho2 ht (by rw [hid]; exact hp2)
    omega
  | step o2 p2 ho2 hpmem hpar hdesc ih =>
    have h2 := rankOf_parent hF ho2 hpmem hpar
    omega

theorem IsDesc.sibling_unique {objects : List Elem} (hF : Forest objects)
    {pid : ℕ} {c1 c2 : Elem} (h1 : c1 ∈ objects) (h2 : c2 ∈ objects)
    (hp1 : c1.parentId = some pid) (hp2 : c2.parentId = some pid) {o : Elem}
    (hd1 : IsDesc objects c1.id o) : IsDesc objects c2.id o → c1 = c2 := by
  induction hd1 with
  | base o2 ho2 hpo2 =>
    intro hd2
    cases hd2 with
    | base _ ho3 hpo3 =>
      refine eq_of_mem_of_id_eq hF.1 h1 h2 ?_
      rw [hpo2] at hpo3
      simpa using hpo3
    | step _ p3 ho3 hp3mem hpar3 hdesc3 =>
      have hpeq : p3.id = c1.id := by
        rw [hpo2] at hpar3
        simpa using hpar3.symm
      have hp3c1 : p3 = c1 := eq_of_mem_of_id_eq hF.1 hp3mem h1 hpeq
      subst hp3c1
      have hrank := hdesc3.rankOf_gt hF h2 rfl
      have heqr := rankOf_eq_of_same_parent hF h1 h2 hp1 hp2
      omega
  | step o2 p2 ho2 hpmem hpar hdesc ih =>
    intro hd2
    cases hd2 with
    | base _ ho3 hpo3 =>
      have hpeq : p2.id = c2.id := by
        rw [hpar] at hpo3
        simpa using hpo3
      have hp2c2 : p2 = c2 := eq_of_mem_of_id_eq hF.1 hpmem h2 hpeq
      subst hp2c2
      have hrank := hdesc.rankOf_gt hF h1 rfl
      have heqr := rankOf_eq_of_same_parent hF h1 h2 hp1 hp2
      omega
    | step _ p3 ho3 hp3mem hpar3 hdesc3 =>
      have hpeq : p3.id = p2.id := by
        rw [hpar] at hpar3
        have := hpar3
        simpa using this.symm
      have hp3p2 : p3 = p2 := eq_of_mem_of_id_eq hF.1 hp3mem hpmem hpeq
      subst hp3p2
      exact ih hdesc3

theorem getAllDescendantsF_nodup {objects : List Elem} (hF : Forest objects) :
    ∀ (fuel : ℕ) (pid : ℕ),
      ((getAllDescendantsF objects fuel pid).map (fun o => o.id)).Nodup := by
  intro fuel
  induction fuel with
  | zero => intro pid; simp [getAllDescendantsF]
  | succ fuel ih =>
    intro pid
    simp only [getAllDescendantsF, List.map_flatMap]
    rw [List.nodup_flatMap]
    constructor
    · intro c hc
      have hcmem : c ∈ objects := (List.mem_filter.mp hc).1
      simp only [List.map_cons]
      rw [List.nodup_cons]
      refine ⟨?_, ih c.id⟩
      intro hmem
      obtain ⟨o, ho, hoid⟩ := List.mem_map.mp hmem
      obtain ⟨homem, hdesc⟩ := mem_getAllDescendantsF ho
      have : o = c := eq_of_mem_of_id_eq hF.1 homem hcmem hoid
      subst this
      exact absurd (hdesc.rankOf_gt hF homem rfl) (lt_irrefl _)
    · have hnodup : (objects.filter (fun o => o.parentId == some pid)).Nodup :=
        (List.filter_sublist objects).nodup (hF.1.of_map (fun o => o.id))
      refine hnodup.imp_of_mem ?_
      intro c1 c2 hc1 hc2 hne
      have h1mem : c1 ∈ objects := (List.mem_filter.mp hc1).1
      have h2mem : c2 ∈ objects := (List.mem_filter.mp hc2).1
      have h1par : c1.parentId = some pid := by
        simpa using (List.mem_filter.mp hc1).2
      have h2par : c2.parentId = some pid := by
        simpa using (List.mem_filter.mp hc2).2
      intro x hx1 hx2
      simp only [List.map_cons, List.mem_cons] at hx1 hx2
      have resolve : ∀ {c : Elem}, c ∈ objects →
          x = c.id ∨ x ∈ (getAllDescendantsF objects fuel c.id).map (fun o => o.id) →
          ∃ u, u ∈ objects ∧ u.id = x ∧ (u = c ∨ IsDesc objects c.id u) := by
        intro c hcm hx
        rcases hx with rfl | hx
        · exact ⟨c, hcm, rfl, Or.inl rfl⟩
        · obtain ⟨u, hu, huid⟩ := List.mem_map.mp hx
          obtain ⟨humem, hdesc⟩ := mem_getAllDescendantsF hu
          exact ⟨u, humem, huid, Or.inr hdesc⟩
      obtain ⟨u1, hu1mem, hu1id, hu1⟩ := resolve h1mem hx1
      obtain ⟨u2, hu2mem, hu2id, hu2⟩ := resolve h2mem hx2
      have huu : u1 = u2 := eq_of_mem_of_id_eq hF.1 hu1mem hu2mem (by rw [hu1id, hu2id])
      subst huu
      have heqr := rankOf_eq_of_same_parent hF h1mem h2mem h1par h2par
      rcases hu1 with rfl | hd1 <;> rcases hu2 with rfl | hd2
    -- cases analysis below
      · exact hne rfl
      · exact absurd (hd2.rankOf_gt hF h2mem rfl) (by omega)
      · exact absurd (hd1.rankOf_gt hF h1mem rfl) (by omega)
      · exact hne (hd1.sibling_unique hF h1mem h2mem h1par h2par hd2)

/-! #### Depth query: bridge to the element-level walk and stabilisation -/

theorem getObjectDepthF_eq_elemDepthF {objects : List Elem} :
    ∀ (f : ℕ) {id : ℕ} {o : Elem},
      objects.find? (fun e => e.id == id) = some o →
      getObjectDepthF objects (f + 1) id = elemDepthF objects (f + 1) o := by
  intro f
  induction f with
  | zero =>
    intro id o hf
    cases hp : o.parentId with
    | none => simp [getObjectDepthF, elemDepthF, hf, hp]
    | some pid =>
      cases hf2 : objects.find? (fun e => e.id == pid) with
      | none => simp [getObjectDepthF, elemDepthF, hf, hp, hf2]
      | some p => simp [getObjectDepthF, elemDepthF, hf, hp, hf2]
  | succ f ih =>
    intro id o hf
    cases hp : o.parentId with
    | none => simp [getObjectDepthF, elemDepthF, hf, hp]
    | some pid =>
      cases hf2 : objects.find? (fun e => e.id == pid) with
      | none => simp [getObjectDepthF, elemDepthF, hf, hp, hf2]
      | some p =>
        have ihp := ih hf2
        generalize f + 1 = n at ihp ⊢
        simp only [getObjectDepthF, elemDepthF, hf, hp, hf2]
        rw [ihp]
        omega

theorem getObjectDepthF_stab_ge {objects : List Elem} (hF : Forest objects) :
    ∀ (fuel : ℕ), objects.length + 1 ≤ fuel → ∀ (id : ℕ),
      getObjectDepthF objects fuel id = getObjectDepth id objects := by
  intro fuel hfu id
  obtain ⟨f, rfl⟩ : ∃ k, fuel = k + 1 := ⟨fuel - 1, by omega⟩
  cases hfind : objects.find? (fun e => e.id == id) with
  | none =>
    have h1 : getObjectDepthF objects (f + 1) id = 0 := by
      simp [getObjectDepthF, hfind]
    have h2 : getObjectDepthF objects (objects.length + 1) id = 0 := by
      simp [getObjectDepthF, hfind]
    rw [getObjectDepth, h1, h2]
  | some o =>
    have homem := List.mem_of_find?_eq_some hfind
    have hreach := hF.2 o homem
    rw [getObjectDepth, getObjectDepthF_eq_elemDepthF f hfind,
      getObjectDepthF_eq_elemDepthF objects.length hfind,
      (reachesRootF_mono_eq hreach (Nat.le_succ objects.length)).2,
      (reachesRootF_mono_eq hreach
        (show objects.length ≤ f + 1 from by omega)).2]

theorem getObjectDepthF_cyclicPair :
    ∀ (fuel : ℕ), getObjectDepthF cyclicPair fuel 0 = fuel ∧
      getObjectDepthF cyclicPair fuel 1 = fuel := by
  intro fuel
  induction fuel with
  | zero => exact ⟨rfl, rfl⟩
  | succ f ih =>
    refine ⟨?_, ?_⟩
    · have h : getObjectDepthF cyclicPair (f + 1) 0 =
          1 + getObjectDepthF cyclicPair f 1 := rfl
      rw [h, ih.2]
      omega
    · have h : getObjectDepthF cyclicPair (f + 1) 1 =
          1 + getObjectDepthF cyclicPair f 0 := rfl
      rw [h, ih.1]
      omega

/-- **C10**. On every acyclic forest (each parent chain reaches a root,
unique ids), `getObjectDepth` and `getAllDescendants` terminate: their
fuel-indexed unfoldings stabilise at the canonical fuel.  The descendant
list contains each transitive descendant of `parentId` exactly once (its
id list has no duplicates and membership is exactly transitive descent).
Neither function has a cycle guard: on the two-element cyclic store the
depth walk consumes every amount of fuel without stabilising, so
acyclicity is the precondition for termination. -/
theorem hierarchy_traversal_termination (objects : List Elem) (hF : Forest objects) :
    (∀ fuel, objects.length + 1 ≤ fuel → ∀ id,
      getObjectDepthF objects fuel id = getObjectDepth id objects) ∧
    (∀ fuel, objects.length + 1 ≤ fuel → ∀ pid,
      getAllDescendantsF objects fuel pid = getAllDescendants pid objects) ∧
    (∀ pid, ((getAllDescendants pid objects).map (fun o => o.id)).Nodup) ∧
    (∀ pid o, o ∈ getAllDescendants pid objects ↔ o ∈ objects ∧ IsDesc objects pid o) ∧
    (∀ fuel, getObjectDepthF cyclicPair fuel 0 = fuel) := by
  refine ⟨getObjectDepthF_stab_ge hF, getAllDescendantsF_stab_ge hF,
    fun pid => getAllDescendantsF_nodup hF (objects.length + 1) pid,
    fun pid o => ⟨fun h => mem_getAllDescendantsF h,
      fun h => h.2.mem_getAllDescendants hF⟩,
    fun fuel => (getObjectDepthF_cyclicPair fuel).1⟩

/-- Witness for **C10**: the demo chain store is a forest, and the
descendants of the root are exactly the two lower elements, each once. -/
theorem hierarchy_traversal_termination_witness :
    Forest chainStore ∧
    ((getAllDescendants 1 chainStore).map (fun o => o.id)).Nodup :=
  ⟨by unfold Forest; decide,
    (hierarchy_traversal_termination chainStore (by unfold Forest; decide)).2.2.1 1⟩

/-! #### Skeleton-preserving update maps -/

theorem find_map_id_pres {objects : List Elem} {f : Elem → Elem}
    (hid : ∀ o, (f o).id = o.id) (x : ℕ) :
    (objects.map f).find? (fun o => o.id == x) =
      (objects.find? (fun o => o.id == x)).map f := by
  rw [List.find?_map]
  have hpred : ((fun o : Elem => o.id == x) ∘ f) = fun o : Elem => o.id == x := by
    funext o
    simp [Function.comp, hid o]
  rw [hpred]

theorem find_map_update {objects : List Elem}
    (hn : (objects.map (fun o => o.id)).Nodup) {o : Elem} (ho : o ∈ objects)
    (f : Elem → Elem) (hid : ∀ u, (f u).id = u.id) :
    (objects.map f).find? (fun e => e.id == o.id) = some (f o) := by
  rw [find_map_id_pres hid o.id, find_id_eq_some_of_mem hn ho, Option.map_some']

theorem map_id_pres_ids {objects : List Elem} {f : Elem → Elem}
    (hid : ∀ o, (f o).id = o.id) :
    (objects.map f).map (fun o => o.id) = objects.map (fun o => o.id) := by
  rw [List.map_map]
  exact List.map_congr_left (fun a _ => hid a)

theorem reachesRootF_map {objects : List Elem} {f : Elem → Elem}
    (hid : ∀ o, (f o).id = o.id) (hpar : ∀ o, (f o).parentId = o.parentId) :
    ∀ (n : ℕ) (o : Elem),
      reachesRootF (objects.map f) n (f o) = reachesRootF objects n o := by
  intro n
  induction n with
  | zero => intro o; rfl
  | succ n ih =>
    intro o
    cases hp : o.parentId with
    | none => simp only [reachesRootF, hpar o, hp]
    | some pid =>
      simp only [reachesRootF, hpar o, hp]
      rw [find_map_id_pres hid pid]
      cases hf : objects.find? (fun e => e.id == pid) with
      | none => rfl
      | some p =>
        rw [Option.map_some']
        exact ih p

theorem Forest.map {objects : List Elem} (hF : Forest objects) {f : Elem → Elem}
    (hid : ∀ o, (f o).id = o.id) (hpar : ∀ o, (f o).parentId = o.parentId) :
    Forest (objects.map f) := by
  obtain ⟨hn, hr⟩ := hF
  refine ⟨by rw [map_id_pres_ids hid]; exact hn, ?_⟩
  intro o ho
  obtain ⟨o0, ho0, rfl⟩ := List.mem_map.mp ho
  rw [List.length_map, reachesRootF_map hid hpar objects.length o0]
  exact hr o0 ho0

/-! #### The constrained move and its frame -/

theorem clamp_mem {lo hi x : ℚ} (h : lo ≤ hi) :
    lo ≤ max lo (min x hi) ∧ max lo (min x hi) ≤ hi := by
  refine ⟨le_max_left lo _, ?_⟩
  rcases max_cases lo (min x hi) with ⟨heq, h2⟩ | ⟨heq, h2⟩ <;> rw [heq]
  · exact h
  · exact min_le_right x hi

theorem move_cond_iff {objects : List Elem} (hF : Forest objects) {tid : ℕ}
    {o : Elem} (ho : o ∈ objects) :
    (o.id == tid || ((getAllDescendants tid objects).map (fun e => e.id)).contains o.id)
        = true ↔
      o.id = tid ∨ IsDesc objects tid o := by
  simp only [Bool.or_eq_true, beq_iff_eq]
  constructor
  · rintro (h | h)
    · exact Or.inl h
    · refine Or.inr ?_
      have hmem : o.id ∈ (getAllDescendants tid objects).map (fun e => e.id) := by
        simpa using h
      obtain ⟨u, hu, huid⟩ := List.mem_map.mp hmem
      have hu2 : u ∈ getAllDescendantsF objects (objects.length + 1) tid := hu
      obtain ⟨humem, hdesc⟩ := mem_getAllDescendantsF hu2
      have : u = o := eq_of_mem_of_id_eq hF.1 humem ho huid
      exact this ▸ hdesc
  · rintro (h | h)
    · exact Or.inl h
    · refine Or.inr ?_
      have hmem := h.mem_getAllDescendants hF
      simpa using List.mem_map_of_mem (fun e => e.id) hmem

theorem moveWithDescendants_find_moved {objects : List Elem} (hF : Forest objects)
    {tid : ℕ} {t : Elem} (hfind : objects.find? (fun o => o.id == tid) = some t)
    (dx dy : ℚ) {o : Elem} (ho : o ∈ objects)
    (hcond : o.id = tid ∨ IsDesc objects tid o) :
    (moveWithDescendants objects tid dx dy).find? (fun u => u.id == o.id) =
      some { o with left := o.left + (constrainedLeft objects t dx - t.left),
                    top := o.top + (constrainedTop objects t dy - t.top) } := by
  simp only [moveWithDescendants, hfind]
  rw [find_map_update hF.1 ho]
  · have hc := (move_cond_iff hF ho).mpr hcond
    rw [if_pos hc]
  · intro u
    dsimp only
    split <;> rfl

theorem moveWithDescendants_find_other {objects : List Elem} (hF : Forest objects)
    {tid : ℕ} {t : Elem} (hfind : objects.find? (fun o => o.id == tid) = some t)
    (dx dy : ℚ) {o : Elem} (ho : o ∈ objects)
    (hne : o.id ≠ tid) (hnd : ¬ IsDesc objects tid o) :
    (moveWithDescendants objects tid dx dy).find? (fun u => u.id == o.id) = some o := by
  simp only [moveWithDescendants, hfind]
  rw [find_map_update hF.1 ho]
  · have hc : ¬ (o.id == tid ||
        ((getAllDescendants tid objects).map (fun e => e.id)).contains o.id) = true := by
      intro h
      rcases (move_cond_iff hF ho).mp h with h2 | h2
      · exact hne h2
      · exact hnd h2
    rw [if_neg hc]
  · intro u
    dsimp only
    split <;> rfl

theorem moveWithDescendants_forest {objects : List Elem} (hF : Forest objects)
    (tid : ℕ) (dx dy : ℚ) : Forest (moveWithDescendants objects tid dx dy) := by
  cases hfind : objects.find? (fun o => o.id == tid) with
  | none => simpa only [moveWithDescendants, hfind] using hF
  | some t =>
    simp only [moveWithDescendants, hfind]
    refine hF.map ?_ ?_ <;> intro u <;> dsimp only <;> split <;> rfl

theorem getBoundaryConstraints_of_parent {objects : List Elem}
    (hn : (objects.map (fun o => o.id)).Nodup) {e p : Elem} (hp : p ∈ objects)
    (hpar : e.parentId = some p.id) :
    getBoundaryConstraints e objects =
      { minLeft := p.left, minTop := p.top, maxRight := p.left + p.width,
        maxBottom := p.top + p.height } := by
  simp only [getBoundaryConstraints, hpar, Option.some_bind,
    find_id_eq_some_of_mem hn hp]

theorem width_le_of_inside {e p : Elem} (h : Inside e p) :
    e.width ≤ p.width ∧ e.height ≤ p.height := by
  obtain ⟨h1, h2, h3, h4⟩ := h
  constructor <;> linarith

theorem moveWithDescendants_preserves_pair (eid pid0 tid : ℕ) (dx dy : ℚ)
    (objects : List Elem)
    (h : Forest objects ∧ ∃ e2 p2, e2 ∈ objects ∧ p2 ∈ objects ∧
      e2.id = eid ∧ p2.id = pid0 ∧ e2.parentId = some p2.id ∧
      e2.stayWithinParent = true ∧ Inside e2 p2) :
    Forest (moveWithDescendants objects tid dx dy) ∧ ∃ e3 p3,
      e3 ∈ moveWithDescendants objects tid dx dy ∧
      p3 ∈ moveWithDescendants objects tid dx dy ∧
      e3.id = eid ∧ p3.id = pid0 ∧ e3.parentId = some p3.id ∧
      e3.stayWithinParent = true ∧ Inside e3 p3 := by
  obtain ⟨hF, e2, p2, he2, hp2, heid, hpid, hpar, hsw, hin⟩ := h
  refine ⟨moveWithDescendants_forest hF tid dx dy, ?_⟩
  cases hfind : objects.find? (fun o => o.id == tid) with
  | none =>
    simp only [moveWithDescendants, hfind]
    exact ⟨e2, p2, he2, hp2, heid, hpid, hpar, hsw, hin⟩
  | some t =>
    by_cases hce : e2.id = tid ∨ IsDesc objects tid e2
    · by_cases hce1 : e2.id = tid
      · -- the target is the constrained element itself: it is clamped
        -- within its parent, which does not move
        have ht : t = e2 := by
          have h1 := find_id_eq_some_of_mem hF.1 he2
          rw [hce1, hfind] at h1
          exact Option.some.inj h1
        subst ht
        have hpne : p2.id ≠ tid := by
          intro heq
          have hpe : p2 = t := eq_of_mem_of_id_eq hF.1 hp2 he2 (by rw [heq, hce1])
          subst hpe
          have := rankOf_parent hF he2 he2 hpar
          omega
        have hpnd : ¬ IsDesc objects tid p2 := by
          intro hd
          have h1 := hd.rankOf_gt hF he2 hce1
          have h2 := rankOf_parent hF he2 hp2 hpar
          omega
        have hfe := moveWithDescendants_find_moved hF hfind dx dy he2 (Or.inl hce1)
        have hfp := moveWithDescendants_find_other hF hfind dx dy hp2 hpne hpnd
        refine ⟨_, p2, List.mem_of_find?_eq_some hfe, List.mem_of_find?_eq_some hfp,
          heid, hpid, hpar, hsw, ?_⟩
        have hb := getBoundaryConstraints_of_parent hF.1 hp2 hpar
        obtain ⟨hwle, hhle⟩ := width_le_of_inside hin
        have hcl : constrainedLeft objects t dx =
            max p2.left (min (t.left + dx) ((p2.left + p2.width) - t.width)) := by
          rw [constrainedLeft, hb, hsw]
          simp only [if_true]
        have hct : constrainedTop objects t dy =
            max p2.top (min (t.top + dy) ((p2.top + p2.height) - t.height)) := by
          rw [constrainedTop, hb, hsw]
          simp only [if_true]
        have hc1 := @clamp_mem p2.left ((p2.left + p2.width) - t.width)
          (t.left + dx) (by linarith)
        have hc2 := @clamp_mem p2.top ((p2.top + p2.height) - t.height)
          (t.top + dy) (by linarith)
        rw [← hcl] at hc1
        rw [← hct] at hc2
        refine ⟨?_, ?_, ?_, ?_⟩ <;> dsimp only <;> [skip; skip; skip; skip] <;> linarith
      · -- the target is a strict ancestor of the pair: both elements are
        -- translated rigidly by the same delta
        have hdesc : IsDesc objects tid e2 := hce.resolve_left hce1
        have hcp : p2.id = tid ∨ IsDesc objects tid p2 := by
          cases hdesc with
          | base _ hmem hp0 =>
            rw [hpar] at hp0
            exact Or.inl (by simpa using hp0)
          | step _ q hmem hqmem hq hdq =>
            have hqe : q.id = p2.id := by
              rw [hpar] at hq
              simpa using hq.symm
            have : q = p2 := eq_of_mem_of_id_eq hF.1 hqmem hp2 hqe
            exact Or.inr (this ▸ hdq)
        have hfe := moveWithDescendants_find_moved hF hfind dx dy he2 (Or.inr hdesc)
        have hfp := moveWithDescendants_find_moved hF hfind dx dy hp2 hcp
        refine ⟨_, _, List.mem_of_find?_eq_some hfe, List.mem_of_find?_eq_some hfp,
          heid, hpid, hpar, hsw, ?_⟩
        obtain ⟨h1, h2, h3, h4⟩ := hin
        refine ⟨?_, ?_, ?_, ?_⟩ <;> dsimp only <;> linarith
    · -- the target is unrelated: neither element moves
      push_neg at hce
      obtain ⟨hne, hnd⟩ := hce
      have hpne : p2.id ≠ tid := by
        intro heq
        exact hnd (.base e2 he2 (by rw [hpar, heq]))
      have hpnd : ¬ IsDesc objects tid p2 := by
        intro hd
        exact hnd (.step e2 p2 he2 hp2 hpar hd)
      have hfe := moveWithDescendants_find_other hF hfind dx dy he2 hne hnd
      have hfp := moveWithDescendants_find_other hF hfind dx dy hp2 hpne hpnd
      exact ⟨e2, p2, List.mem_of_find?_eq_some hfe, List.mem_of_find?_eq_some hfp,
        heid, hpid, hpar, hsw, hin⟩

theorem applyMoves_preserves_pair (eid pid0 : ℕ) :
    ∀ (moves : List (ℕ × ℚ × ℚ)) (objects : List Elem),
      (Forest objects ∧ ∃ e2 p2, e2 ∈ objects ∧ p2 ∈ objects ∧
        e2.id = eid ∧ p2.id = pid0 ∧ e2.parentId = some p2.id ∧
        e2.stayWithinParent = true ∧ Inside e2 p2) →
      (Forest (applyMoves objects moves) ∧ ∃ e3 p3,
        e3 ∈ applyMoves objects moves ∧ p3 ∈ applyMoves objects moves ∧
        e3.id = eid ∧ p3.id = pid0 ∧ e3.parentId = some p3.id ∧
        e3.stayWithinParent = true ∧ Inside e3 p3) := by
  intro moves
  induction moves with
  | nil => intro objects h; exact h
  | cons m ms ih =>
    intro objects h
    exact ih (moveWithDescendants objects m.1 m.2.1 m.2.2)
      (moveWithDescendants_preserves_pair eid pid0 m.1 m.2.1 m.2.2 objects h)

/-- Concrete evaluation of the two-move drag session used as the C1 witness:
each step is computed by resolving the target lookup and the descendant set by
`decide` and the clamping arithmetic by `norm_num`. -/
theorem applyMoves_chainStore_eval :
    applyMoves chainStore [(1, 500, 0), (2, -40, 10)] = chainStoreMoved2 := by
  have hf1 : chainStore.find? (fun o => o.id == 1) =
      some { id := 1, parentId := none, left := 100, top := 100, width := 300,
             height := 200, depth := 0, zIndex := 1, stayWithinParent := true,
             selected := false } := by decide
  have hd1 : (getAllDescendants 1 chainStore).map (fun o => o.id) = [2, 3] := by
    decide
  have hm1 : moveWithDescendants chainStore 1 500 0 = chainStoreMoved1 := by
    simp only [moveWithDescendants, hf1, hd1]
    norm_num [chainStore, chainStoreMoved1, constrainedLeft, constrainedTop,
      getBoundaryConstraints]
  have hf2 : chainStoreMoved1.find? (fun o => o.id == 2) =
      some { id := 2, parentId := some 1, left := 520, top := 120, width := 150,
             height := 100, depth := 1, zIndex := 1, stayWithinParent := true,
             selected := false } := by decide
  have hd2 : (getAllDescendants 2 chainStoreMoved1).map (fun o => o.id) = [3] := by
    decide
  have hm2 : moveWithDescendants chainStoreMoved1 2 (-40) 10 = chainStoreMoved2 := by
    simp only [moveWithDescendants, hf2, hd2]
    norm_num [chainStoreMoved1, chainStoreMoved2, constrainedLeft, constrainedTop,
      getBoundaryConstraints]
  show moveWithDescendants (moveWithDescendants chainStore 1 500 0) 2 (-40) 10 =
    chainStoreMoved2
  rw [hm1, hm2]

/-- **C1**. If the store is a well-formed forest in which every element is
contained in its parent at rest, then an element `e` with
`stayWithinParent = true` and parent `p` is still fully contained in `p`
after any sequence of `moveWithDescendants` calls (arbitrary targets and
deltas). -/
theorem containment_after_move_sequences (objects : List Elem) (e p : Elem)
    (hF : Forest objects) (hcont : ParentContained objects)
    (he : e ∈ objects) (hp : p ∈ objects) (hpar : e.parentId = some p.id)
    (hsw : e.stayWithinParent = true) (moves : List (ℕ × ℚ × ℚ)) :
    ∀ e2 p2,
      (applyMoves objects moves).find? (fun o => o.id == e.id) = some e2 →
      (applyMoves objects moves).find? (fun o => o.id == p.id) = some p2 →
      Inside e2 p2 := by
  have hfin := applyMoves_preserves_pair e.id p.id moves objects
    ⟨hF, e, p, he, hp, rfl, rfl, hpar, hsw, hcont e he p hp hpar⟩
  obtain ⟨hFf, e3, p3, he3, hp3, he3i, hp3i, hpar3, hsw3, hin3⟩ := hfin
  intro e2 p2 hfe hfp
  have h1 : (applyMoves objects moves).find? (fun o => o.id == e.id) = some e3 := by
    rw [← he3i]
    exact find_id_eq_some_of_mem hFf.1 he3
  have h2 : (applyMoves objects moves).find? (fun o => o.id == p.id) = some p3 := by
    rw [← hp3i]
    exact find_id_eq_some_of_mem hFf.1 hp3
  rw [h1] at hfe
  rw [h2] at hfp
  rw [← Option.some.inj hfe, ← Option.some.inj hfp]
  exact hin3

/-- Witness for **C1**: on the demo chain store, moving the root by
(500, 0) — clamped to the canvas — and then the middle element by
(−40, 10) — clamped to the moved root — puts the grandchild at
(520, 150) and its parent at (500, 130), and the grandchild is contained
in the parent. -/
theorem containment_after_move_sequences_witness :
    (applyMoves chainStore [(1, 500, 0), (2, -40, 10)]).find?
        (fun o => o.id == 3) =
      some { id := 3, parentId := some 2, left := 520, top := 150, width := 80,
             height := 60, depth := 2, zIndex := 1, stayWithinParent := true,
             selected := false } ∧
    (applyMoves chainStore [(1, 500, 0), (2, -40, 10)]).find?
        (fun o => o.id == 2) =
      some { id := 2, parentId := some 1, left := 500, top := 130, width := 150,
             height := 100, depth := 1, zIndex := 1, stayWithinParent := true,
             selected := false } ∧
    Inside
      { id := 3, parentId := some 2, left := 520, top := 150, width := 80,
        height := 60, depth := 2, zIndex := 1, stayWithinParent := true,
        selected := false }
      { id := 2, parentId := some 1, left := 500, top := 130, width := 150,
        height := 100, depth := 1, zIndex := 1, stayWithinParent := true,
        selected := false } := by
  have hf3 : (applyMoves chainStore [(1, 500, 0), (2, -40, 10)]).find?
      (fun o => o.id == 3) =
      some { id := 3, parentId := some 2, left := 520, top := 150, width := 80,
             height := 60, depth := 2, zIndex := 1, stayWithinParent := true,
             selected := false } := by
    rw [applyMoves_chainStore_eval]; decide
  have hf2 : (applyMoves chainStore [(1, 500, 0), (2, -40, 10)]).find?
      (fun o => o.id == 2) =
      some { id := 2, parentId := some 1, left := 500, top := 130, width := 150,
             height := 100, depth := 1, zIndex := 1, stayWithinParent := true,
             selected := false } := by
    rw [applyMoves_chainStore_eval]; decide
  have hcont : ParentContained chainStore := by
    intro a ha b hb hab
    fin_cases ha <;> fin_cases hb <;>
      simp_all [Inside, chainStore] <;> norm_num
  refine ⟨hf3, hf2, ?_⟩
  exact containment_after_move_sequences chainStore
    (chainStore.get ⟨2, by norm_num [chainStore]⟩)
    (chainStore.get ⟨1, by norm_num [chainStore]⟩)
    (by unfold Forest; decide) hcont
    (by simp [chainStore]) (by simp [chainStore]) rfl rfl
    [(1, 500, 0), (2, -40, 10)] _ _ hf3 hf2

/-- **C2**. `moveWithDescendants` clamps only the target: with
`stayWithinParent` true the clamped left edge lies in
`[bounds.minLeft, bounds.maxRight − width]` (whenever that interval is
non-empty, likewise for the top edge), with `stayWithinParent` false the
raw delta is used, and the single constrained delta is applied unclamped
to the target and to every transitive descendant — so relative offsets are
preserved — while every non-descendant (siblings, ancestors) is left
exactly unchanged. -/
theorem move_rigid_subtree (objects : List Elem) (hF : Forest objects) (tid : ℕ)
    (t : Elem) (hfind : objects.find? (fun o => o.id == tid) = some t)
    (dx dy : ℚ) :
    (t.stayWithinParent = true →
      (getBoundaryConstraints t objects).minLeft ≤
          (getBoundaryConstraints t objects).maxRight - t.width →
        (getBoundaryConstraints t objects).minLeft ≤ constrainedLeft objects t dx ∧
        constrainedLeft objects t dx ≤
          (getBoundaryConstraints t objects).maxRight - t.width) ∧
    (t.stayWithinParent = true →
      (getBoundaryConstraints t objects).minTop ≤
          (getBoundaryConstraints t objects).maxBottom - t.height →
        (getBoundaryConstraints t objects).minTop ≤ constrainedTop objects t dy ∧
        constrainedTop objects t dy ≤
          (getBoundaryConstraints t objects).maxBottom - t.height) ∧
    (t.stayWithinParent = false →
      constrainedLeft objects t dx = t.left + dx ∧
      constrainedTop objects t dy = t.top + dy) ∧
    (∀ o ∈ objects, o.id = tid ∨ IsDesc objects tid o →
      (moveWithDescendants objects tid dx dy).find? (fun u => u.id == o.id) =
        some { o with left := o.left + (constrainedLeft objects t dx - t.left),
                      top := o.top + (constrainedTop objects t dy - t.top) }) ∧
    (∀ o ∈ objects, o.id ≠ tid → ¬ IsDesc objects tid o →
      (moveWithDescendants objects tid dx dy).find? (fun u => u.id == o.id) =
        some o) := by
  refine ⟨?_, ?_, ?_,
    fun o ho hc => moveWithDescendants_find_moved hF hfind dx dy ho hc,
    fun o ho h1 h2 => moveWithDescendants_find_other hF hfind dx dy ho h1 h2⟩
  · intro hsw hne
    rw [constrainedLeft, hsw]
    simp only [if_true]
    exact clamp_mem hne
  · intro hsw hne
    rw [constrainedTop, hsw]
    simp only [if_true]
    exact clamp_mem hne
  · intro hsw
    rw [constrainedLeft, constrainedTop, hsw]
    simp

/-- Witness for **C2**: moving the demo root right by 500 translates the
grandchild by the clamped delta (the root stops at the canvas edge). -/
theorem move_rigid_subtree_witness :
    (moveWithDescendants chainStore 1 500 0).find? (fun u => u.id == 3) =
      some { (chainStore.get ⟨2, by norm_num [chainStore]⟩) with
        left := (chainStore.get ⟨2, by norm_num [chainStore]⟩).left +
          (constrainedLeft chainStore (chainStore.get ⟨0, by norm_num [chainStore]⟩) 500 -
            (chainStore.get ⟨0, by norm_num [chainStore]⟩).left),
        top := (chainStore.get ⟨2, by norm_num [chainStore]⟩).top +
          (constrainedTop chainStore (chainStore.get ⟨0, by norm_num [chainStore]⟩) 0 -
            (chainStore.get ⟨0, by norm_num [chainStore]⟩).top) } := by
  refine (move_rigid_subtree chainStore (by unfold Forest; decide) 1
    (chainStore.get ⟨0, by norm_num [chainStore]⟩) rfl 500 0).2.2.2.1
    (chainStore.get ⟨2, by norm_num [chainStore]⟩) (by simp [chainStore])
    (Or.inr ?_)
  exact .step _ (chainStore.get ⟨1, by norm_num [chainStore]⟩)
    (by simp [chainStore]) (by simp [chainStore]) rfl
    (.base _ (by simp [chainStore]) rfl)

theorem isPointNearObjectEdge_iff (x y : ℚ) (obj : Elem) (t : ℚ) :
    isPointNearObjectEdge x y obj t = true ↔
      InsideOuterRect x y obj ∧ WithinThresholdOfSomeSide x y obj t := by
  simp only [isPointNearObjectEdge, ge_iff_le]
  cases hb : (decide (obj.left ≤ x) && decide (x ≤ obj.left + obj.width) &&
      decide (obj.top ≤ y) && decide (y ≤ obj.top + obj.height)) with
  | false =>
    rw [if_pos (show (!false) = true from rfl)]
    simp only [Bool.false_eq_true, false_iff, not_and]
    intro hin hw
    obtain ⟨h1, h2, h3, h4⟩ := hin
    simp [h1, h2, h3, h4] at hb
  | true =>
    rw [if_neg (show ¬ (!true) = true from by simp)]
    simp only [Bool.and_eq_true, decide_eq_true_eq] at hb
    obtain ⟨⟨⟨h1, h2⟩, h3⟩, h4⟩ := hb
    simp only [decide_eq_true_eq, min_le_iff]
    unfold InsideOuterRect WithinThresholdOfSomeSide
    constructor
    · rintro ((h | h) | (h | h)) <;> exact ⟨⟨h1, h2, h3, h4⟩, by tauto⟩
    · rintro ⟨-, h | h | h | h⟩ <;> tauto

/-- **C3**. The edge-only hit test accepts a point iff the point is inside
the element's outer rectangle (boundary inclusive) and within
`EDGE_THRESHOLD = 10` units of at least one of the four sides; when the
width or height is at most `2 * EDGE_THRESHOLD` every interior point
counts as edge; and on a 100×100 element at the origin the center (50,50)
is rejected while (5,5) and (5,50) are accepted. -/
theorem edge_hit_test_spec :
    (∀ (x y : ℚ) (obj : Elem),
      isPointNearObjectEdge x y obj 10 = true ↔
        InsideOuterRect x y obj ∧ WithinThresholdOfSomeSide x y obj 10) ∧
    (∀ (x y : ℚ) (obj : Elem), obj.width ≤ 20 ∨ obj.height ≤ 20 →
      (isPointNearObjectEdge x y obj 10 = true ↔ InsideOuterRect x y obj)) ∧
    isPointNearObjectEdge 50 50 elemHundred 10 = false ∧
    isPointNearObjectEdge 5 5 elemHundred 10 = true ∧
    isPointNearObjectEdge 5 50 elemHundred 10 = true := by
  refine ⟨fun x y obj => isPointNearObjectEdge_iff x y obj 10,
    fun x y obj hdeg => ?_, ?_, ?_, ?_⟩
  case refine_2 =>
    rw [Bool.eq_false_iff]
    intro h
    obtain ⟨-, hw⟩ := (isPointNearObjectEdge_iff 50 50 elemHundred 10).mp h
    simp only [WithinThresholdOfSomeSide, elemHundred] at hw
    norm_num at hw
  case refine_3 =>
    rw [isPointNearObjectEdge_iff]
    constructor
    · simp only [InsideOuterRect, elemHundred]; norm_num
    · simp only [WithinThresholdOfSomeSide, elemHundred]; norm_num
  case refine_4 =>
    rw [isPointNearObjectEdge_iff]
    constructor
    · simp only [InsideOuterRect, elemHundred]; norm_num
    · simp only [WithinThresholdOfSomeSide, elemHundred]; norm_num
  case refine_1 =>
  rw [isPointNearObjectEdge_iff]
  constructor
  · rintro ⟨h, -⟩; exact h
  · intro h
    refine ⟨h, ?_⟩
    obtain ⟨h1, h2, h3, h4⟩ := h
    unfold WithinThresholdOfSomeSide
    rcases hdeg with hw | hh
    · rcases le_total (x - obj.left) 10 with h' | h'
      · exact Or.inl h'
      · refine Or.inr (Or.inl ?_); linarith
    · rcases le_total (y - obj.top) 10 with h' | h'
      · exact Or.inr (Or.inr (Or.inl h'))
      · refine Or.inr (Or.inr (Or.inr ?_)); linarith

/-- Witness for **C3**: the degenerate clause applied to a thin 100×15
element, so a central point (50, 8) still counts as edge. -/
theorem edge_hit_test_spec_witness :
    isPointNearObjectEdge 50 8
      { id := 1, parentId := none, left := 0, top := 0, width := 100,
        height := 15, depth := 0, zIndex := 1, stayWithinParent := true,
        selected := false } 10 = true :=
  (edge_hit_test_spec.2.1 50 8 _ (Or.inr (by norm_num))).mpr
    (by constructor <;> norm_num)

/-! #### Render order and point selection -/

theorem renderLE_refl (a : Elem) : RenderLE a a :=
  Or.inr ⟨rfl, le_refl a.zIndex⟩

theorem find_first_wins {R : Elem → Elem → Prop} {p : Elem → Bool} :
    ∀ {l : List Elem} {t : Elem}, l.Pairwise R → l.find? p = some t →
      ∀ o ∈ l, p o = true → o = t ∨ R t o := by
  intro l
  induction l with
  | nil => intro t hs hf o ho; cases ho
  | cons a as ih =>
    intro t hs hf o ho hp
    cases hpa : p a with
    | true =>
      have hta : t = a := by
        rw [List.find?_cons, hpa] at hf
        exact (Option.some.inj hf).symm
      subst hta
      rcases List.mem_cons.mp ho with rfl | ho2
      · exact Or.inl rfl
      · exact Or.inr ((List.pairwise_cons.mp hs).1 o ho2)
    | false =>
      have hf2 : as.find? p = some t := by
        rw [List.find?_cons, hpa] at hf
        exact hf
      rcases List.mem_cons.mp ho with rfl | ho2
      · rw [hpa] at hp; cases hp
      · exact ih (List.pairwise_cons.mp hs).2 hf2 o ho2 hp

theorem mem_renderOrder_iff {objects : List Elem} {o : Elem} :
    o ∈ (getElementsInRenderOrder objects).reverse ↔ o ∈ objects := by
  rw [List.mem_reverse]
  exact (List.perm_insertionSort RenderLE objects).mem_iff

/-- **C4**. `selectAtPoint` returns a hit element that is maximal in the
(depth, zIndex) order among all elements whose edge zone contains the
point — in particular, of two overlapping same-depth hits the higher
zIndex wins — and it rewrites the store so that exactly the returned
element carries the `selected` flag; if no element's edge zone contains
the point it returns `none` and clears every `selected` flag. -/
theorem select_at_point_spec (objects : List Elem)
    (hn : (objects.map (fun o => o.id)).Nodup) (x y : ℚ) :
    (∀ t st, selectAtPoint objects x y = (some t, st) →
      t ∈ objects ∧ isPointNearObjectEdge x y t 10 = true ∧
      (∀ o ∈ objects, isPointNearObjectEdge x y o 10 = true → RenderLE o t) ∧
      (∀ o ∈ objects, st.find? (fun u => u.id == o.id) =
        some { o with selected := o.id == t.id })) ∧
    (∀ st, selectAtPoint objects x y = (none, st) →
      (∀ o ∈ objects, isPointNearObjectEdge x y o 10 = false) ∧
      (∀ o ∈ objects, st.find? (fun u => u.id == o.id) =
        some { o with selected := false })) := by
  constructor
  · intro t st h
    cases hm : getTopElementAtEdge x y ((getElementsInRenderOrder objects).reverse) with
    | none =>
      simp only [selectAtPoint, hm, Prod.mk.injEq] at h
      exact absurd h.1 (by simp)
    | some target =>
      simp only [selectAtPoint, hm, Prod.mk.injEq] at h
      obtain ⟨hts, hst⟩ := h
      have htt : target = t := Option.some.inj hts
      subst htt
      subst hst
      have hm2 : ((getElementsInRenderOrder objects).reverse).find?
          (fun o => isPointNearObjectEdge x y o 10) = some target := hm
      have hmem : target ∈ objects :=
        mem_renderOrder_iff.mp (List.mem_of_find?_eq_some hm2)
      have hhit := List.find?_some hm2
      refine ⟨hmem, hhit, ?_, ?_⟩
      · intro o ho hpo
        have hsorted : ((getElementsInRenderOrder objects).reverse).Pairwise
            (fun a b => RenderLE b a) :=
          List.pairwise_reverse.mpr (List.sorted_insertionSort RenderLE objects)
        rcases find_first_wins hsorted hm2 o (mem_renderOrder_iff.mpr ho) hpo with
          rfl | hR
        · exact renderLE_refl o
        · exact hR
      · intro o ho
        exact find_map_update hn ho _ (fun u => rfl)
  · intro st h
    cases hm : getTopElementAtEdge x y ((getElementsInRenderOrder objects).reverse) with
    | some target =>
      simp only [selectAtPoint, hm, Prod.mk.injEq] at h
      exact absurd h.1 (by simp)
    | none =>
      simp only [selectAtPoint, hm, Prod.mk.injEq] at h
      obtain ⟨-, hst⟩ := h
      subst hst
      have hm2 : ((getElementsInRenderOrder objects).reverse).find?
          (fun o => isPointNearObjectEdge x y o 10) = none := hm
      constructor
      · intro o ho
        have := List.find?_eq_none.mp hm2 o (mem_renderOrder_iff.mpr ho)
        simpa using this
      · intro o ho
        exact find_map_update hn ho _ (fun u => rfl)

/-- Witness for **C4**: at (5,5) both overlapping elements are edge hits
and the one with the higher zIndex is returned and selected. -/
theorem select_at_point_spec_witness :
    selB ∈ selW ∧ isPointNearObjectEdge 5 5 selB 10 = true ∧
    RenderLE selA selB := by
  have hAB : RenderLE selA selB := Or.inr ⟨rfl, by norm_num [selA, selB]⟩
  have hhitB : isPointNearObjectEdge 5 5 selB 10 = true := by
    rw [isPointNearObjectEdge_iff]
    constructor
    · simp only [InsideOuterRect, selB]; norm_num
    · simp only [WithinThresholdOfSomeSide, selB]; norm_num
  have hsort : getElementsInRenderOrder selW = [selA, selB] := by
    simp only [selW, getElementsInRenderOrder, List.insertionSort, List.orderedInsert]
    rw [if_pos hAB]
  have heval : selectAtPoint selW 5 5 =
      (some selB, selW.map (fun o => { o with selected := o.id == selB.id })) := by
    rw [selectAtPoint, getTopElementAtEdge, hsort]
    simp only [List.reverse_cons, List.reverse_nil, List.nil_append,
      List.cons_append, List.find?_cons, hhitB]
  have h := (select_at_point_spec selW (by decide) 5 5).1 selB _ heval
  exact ⟨h.1, h.2.1, h.2.2.1 selA (by simp [selW]) (by
    rw [isPointNearObjectEdge_iff]
    constructor
    · simp only [InsideOuterRect, selA]; norm_num
    · simp only [WithinThresholdOfSomeSide, selA]; norm_num)⟩


/-! #### Drag selection -/

theorem cornersInRect_iff {obj : Elem} {r : SelRect} (hw : 0 ≤ obj.width)
    (hh : 0 ≤ obj.height) :
    CornersInRect obj r ↔
      obj.left ≥ r.left ∧ obj.top ≥ r.top ∧
      obj.left + obj.width ≤ r.right ∧ obj.top + obj.height ≤ r.bottom := by
  unfold CornersInRect
  simp only [List.mem_cons, List.not_mem_nil, or_false, forall_eq_or_imp, forall_eq]
  constructor
  · rintro ⟨⟨a1, a2, a3, a4⟩, ⟨b1, b2, b3, b4⟩, ⟨c1, c2, c3, c4⟩, d1, d2, d3, d4⟩
    refine ⟨?_, ?_, ?_, ?_⟩ <;> linarith
  · rintro ⟨h1, h2, h3, h4⟩
    refine ⟨⟨?_, ?_, ?_, ?_⟩, ⟨?_, ?_, ?_, ?_⟩, ⟨?_, ?_, ?_, ?_⟩, ?_, ?_, ?_, ?_⟩ <;>
      dsimp only <;> linarith

theorem mem_getObjectsInSelectionBounds_iff {r : SelRect} {objects : List Elem}
    {obj : Elem} :
    obj ∈ getObjectsInSelectionBounds r objects ↔
      obj ∈ objects ∧ obj.left ≥ r.left ∧ obj.top ≥ r.top ∧
      obj.left + obj.width ≤ r.right ∧ obj.top + obj.height ≤ r.bottom := by
  unfold getObjectsInSelectionBounds
  rw [List.mem_filter]
  simp [and_assoc]

theorem findMostParentObject_mem {sel objects : List Elem} {res : Elem}
    (h : findMostParentObject sel objects = some res) : res ∈ sel := by
  unfold findMostParentObject at h
  suffices hgen : ∀ (l : List Elem) (acc : Option Elem),
      l.foldl (fun acc obj =>
        match acc with
        | none => some obj
        | some best =>
          if getObjectDepth obj.id objects < getObjectDepth best.id objects then
            some obj
          else acc) acc = some res →
      acc = some res ∨ res ∈ l by
    rcases hgen sel none h with hacc | hmem
    · cases hacc
    · exact hmem
  intro l
  induction l with
  | nil => intro acc h2; exact Or.inl h2
  | cons a as ih =>
    intro acc h2
    rw [List.foldl_cons] at h2
    rcases ih _ h2 with hacc | hmem
    · cases acc with
      | none =>
        simp only at hacc
        exact Or.inr (List.mem_cons.mpr (Or.inl (Option.some.inj hacc).symm))
      | some best =>
        simp only at hacc
        split at hacc
        · exact Or.inr (List.mem_cons.mpr (Or.inl (Option.some.inj hacc).symm))
        · exact Or.inl hacc
    · exact Or.inr (List.mem_cons.mpr (Or.inr hmem))

/-- **C7**. A drag-selection candidate is exactly an element all four of
whose corners lie inside the drag rectangle (inclusive bounds); hence the
element returned by `selectByDrag` always has all four corners inside, and
an element with any corner outside is never returned. -/
theorem drag_selection_containment (r : SelRect) (objects : List Elem) :
    (∀ obj ∈ objects, 0 ≤ obj.width → 0 ≤ obj.height →
      (obj ∈ getObjectsInSelectionBounds r objects ↔ CornersInRect obj r)) ∧
    (∀ res, selectByDrag r objects = some res →
      res ∈ getObjectsInSelectionBounds r objects ∧
      (0 ≤ res.width → 0 ≤ res.height → CornersInRect res r)) := by
  constructor
  · intro obj hm hw hh
    rw [mem_getObjectsInSelectionBounds_iff, cornersInRect_iff hw hh]
    simp [hm]
  · intro res h
    have hmem : res ∈ getObjectsInSelectionBounds r objects :=
      findMostParentObject_mem h
    refine ⟨hmem, fun hw hh => ?_⟩
    rw [cornersInRect_iff hw hh]
    exact (mem_getObjectsInSelectionBounds_iff.mp hmem).2

/-- Witness for **C7**: a 100×100 element at the origin is a candidate of
the drag rectangle [−1, 101]² and all its corners are inside. -/
theorem drag_selection_containment_witness :
    CornersInRect elemHundred { left := -1, top := -1, right := 101, bottom := 101 } := by
  refine ((drag_selection_containment
    { left := -1, top := -1, right := 101, bottom := 101 } [elemHundred]).1
    elemHundred (by simp) (by norm_num [elemHundred]) (by norm_num [elemHundred])).mp ?_
  rw [mem_getObjectsInSelectionBounds_iff]
  refine ⟨by simp, ?_, ?_, ?_, ?_⟩ <;> norm_num [elemHundred]


/-! #### The two drag-resolution strategies -/

theorem getObjectDepth_eq_rankOf {objects : List Elem} (hF : Forest objects)
    {c : Elem} (hc : c ∈ objects) :
    getObjectDepth c.id objects = rankOf objects c := by
  rw [getObjectDepth,
    getObjectDepthF_eq_elemDepthF objects.length (find_id_eq_some_of_mem hF.1 hc)]
  exact (reachesRootF_mono_eq (hF.2 c hc) (Nat.le_succ objects.length)).2

theorem foldl_lowest_keeps {objects : List Elem} {t : Elem} :
    ∀ (l : List Elem),
      (∀ c ∈ l, ¬ getObjectDepth c.id objects < getObjectDepth t.id objects) →
      l.foldl (fun acc obj =>
        match acc with
        | none => some obj
        | some best =>
          if getObjectDepth obj.id objects < getObjectDepth best.id objects then
            some obj
          else acc) (some t) = some t := by
  intro l
  induction l with
  | nil => intro h; rfl
  | cons a as ih =>
    intro h
    rw [List.foldl_cons]
    have hna := h a (List.mem_cons_self a as)
    simp only [if_neg hna]
    exact ih (fun c hc => h c (List.mem_cons_of_mem a hc))

theorem foldl_lowest_wins {objects : List Elem} {t : Elem} :
    ∀ (l : List Elem) (acc : Option Elem), t ∈ l →
      (∀ c ∈ l, c ≠ t →
        getObjectDepth t.id objects < getObjectDepth c.id objects) →
      (acc = none ∨ ∃ b, acc = some b ∧
        getObjectDepth t.id objects < getObjectDepth b.id objects) →
      l.foldl (fun acc obj =>
        match acc with
        | none => some obj
        | some best =>
          if getObjectDepth obj.id objects < getObjectDepth best.id objects then
            some obj
          else acc) acc = some t := by
  intro l
  induction l with
  | nil => intro acc ht; cases ht
  | cons a as ih =>
    intro acc ht hlt hacc
    rw [List.foldl_cons]
    rcases hacc with rfl | ⟨b, rfl, hb⟩
    · change List.foldl _ (some a) as = some t
      by_cases hat : a = t
      · subst hat
        exact foldl_lowest_keeps as (fun c hc => by
          by_cases hct : c = a
          · subst hct; omega
          · have := hlt c (List.mem_cons_of_mem a hc) hct
            omega)
      · exact ih (some a) ((List.mem_cons.mp ht).resolve_left (fun h => hat h.symm))
          (fun c hc hct => hlt c (List.mem_cons_of_mem a hc) hct)
          (Or.inr ⟨a, rfl, hlt a (List.mem_cons_self a as) hat⟩)
    · change List.foldl _
        (if getObjectDepth a.id objects < getObjectDepth b.id objects then some a
          else some b) as = some t
      by_cases hat : a = t
      · subst hat
        rw [if_pos hb]
        exact foldl_lowest_keeps as (fun c hc => by
          by_cases hct : c = a
          · subst hct; omega
          · have := hlt c (List.mem_cons_of_mem a hc) hct
            omega)
      · have hta : t ∈ as := (List.mem_cons.mp ht).resolve_left (fun h => hat h.symm)
        have hlta := hlt a (List.mem_cons_self a as) hat
        by_cases hcmp : getObjectDepth a.id objects < getObjectDepth b.id objects
        · rw [if_pos hcmp]
          exact ih _ hta (fun c hc hct => hlt c (List.mem_cons_of_mem a hc) hct)
            (Or.inr ⟨a, rfl, hlta⟩)
        · rw [if_neg hcmp]
          exact ih _ hta (fun c hc hct => hlt c (List.mem_cons_of_mem a hc) hct)
            (Or.inr ⟨b, rfl, hb⟩)

/-- **C8**. Whenever the drag-box candidate set has exactly one element
whose parent is not itself a candidate, the two resolution strategies of
the source — lowest depth across all candidates, and parent-not-in-set —
return that same element; and on a candidate set spanning two disjoint
subtrees (a lone root next to the child of another root) they return
different elements. -/
theorem drag_resolution_strategies (sel objects : List Elem) (t : Elem)
    (hF : Forest objects) (hsub : ∀ o ∈ sel, o ∈ objects)
    (htop : sel.filter (fun obj =>
        match obj.parentId with
        | none => true
        | some pid => !((sel.map (fun o => o.id)).contains pid)) = [t]) :
    (findMostParentObject sel objects = some t ∧
      findMostParentObjectTopLevel sel = some t) ∧
    ((findMostParentObject [divC, divR1] divObjects).map (fun o => o.id) =
        some 20 ∧
      (findMostParentObjectTopLevel [divC, divR1]).map (fun o => o.id) =
        some 22) := by
  have htmem : t ∈ sel := by
    have : t ∈ sel.filter (fun obj =>
        match obj.parentId with
        | none => true
        | some pid => !((sel.map (fun o => o.id)).contains pid)) := by
      rw [htop]; exact List.mem_cons_self t []
    exact (List.mem_filter.mp this).1
  have honly : ∀ c ∈ sel, (match c.parentId with
      | none => true
      | some pid => !((sel.map (fun o => o.id)).contains pid)) = true → c = t := by
    intro c hc hp
    have : c ∈ sel.filter (fun obj =>
        match obj.parentId with
        | none => true
        | some pid => !((sel.map (fun o => o.id)).contains pid)) :=
      List.mem_filter.mpr ⟨hc, hp⟩
    rw [htop] at this
    simpa using this
  have key : ∀ (n : ℕ) (c : Elem), c ∈ sel → c ≠ t → rankOf objects c ≤ n →
      rankOf objects t < rankOf objects c := by
    intro n
    induction n with
    | zero =>
      intro c hc hne hle
      exfalso
      cases hpc : c.parentId with
      | none => exact hne (honly c hc (by rw [hpc]))
      | some pid =>
        by_cases hin : ((sel.map (fun o => o.id)).contains pid) = true
        · obtain ⟨q, hq, hqid⟩ := List.mem_map.mp (by simpa using hin)
          have := rankOf_parent hF (hsub c hc) (hsub q hq) (by rw [hpc, hqid])
          omega
        · refine hne (honly c hc ?_)
          rw [hpc, Bool.not_eq_true']
          exact Bool.eq_false_iff.mpr hin
    | succ n ihn =>
      intro c hc hne hle
      cases hpc : c.parentId with
      | none => exact absurd (honly c hc (by rw [hpc])) hne
      | some pid =>
        by_cases hin : ((sel.map (fun o => o.id)).contains pid) = true
        · obtain ⟨q, hq, hqid⟩ := List.mem_map.mp (by simpa using hin)
          have hrank := rankOf_parent hF (hsub c hc) (hsub q hq) (by rw [hpc, hqid])
          by_cases hqt : q = t
          · subst hqt; omega
          · have := ihn q hq hqt (by omega)
            omega
        · refine absurd (honly c hc ?_) hne
          rw [hpc, Bool.not_eq_true']
          exact Bool.eq_false_iff.mpr hin
  have hlow : ∀ c ∈ sel, c ≠ t →
      getObjectDepth t.id objects < getObjectDepth c.id objects := by
    intro c hc hne
    rw [getObjectDepth_eq_rankOf hF (hsub c hc), getObjectDepth_eq_rankOf hF (hsub t htmem)]
    exact key (rankOf objects c) c hc hne (le_refl _)
  refine ⟨⟨?_, ?_⟩, by decide, by decide⟩
  · unfold findMostParentObject
    exact foldl_lowest_wins sel none htmem hlow (Or.inl rfl)
  · cases sel with
    | nil => simp at htop
    | cons first rest =>
      simp only [findMostParentObjectTopLevel]
      rw [htop]

/-- Witness for **C8**: the singleton candidate set containing only the
child of the second root resolves identically under both strategies. -/
theorem drag_resolution_strategies_witness :
    findMostParentObject [divC] divObjects = some divC ∧
    findMostParentObjectTopLevel [divC] = some divC :=
  (drag_resolution_strategies [divC] divObjects divC (by unfold Forest; decide)
    (by intro o ho; simp only [List.mem_singleton] at ho; subst ho; simp [divObjects])
    rfl).1


/-! #### Error handling and the resize frame -/

theorem clamp_nearest {lo hi x z : ℚ} (h1 : lo ≤ z) (h2 : z ≤ hi) :
    |max lo (min x hi) - x| ≤ |z - x| := by
  rcases le_total x lo with hx | hx
  · rcases le_total x hi with hxh | hxh
    · rw [min_eq_left hxh, max_eq_left hx, abs_of_nonneg (by linarith),
        abs_of_nonneg (by linarith)]
      linarith
    · rw [min_eq_right hxh, max_eq_left (by linarith : hi ≤ lo),
        abs_of_nonneg (by linarith), abs_of_nonneg (by linarith)]
      linarith
  · rcases le_total x hi with hxh | hxh
    · rw [min_eq_left hxh, max_eq_right hx, sub_self, abs_zero]
      exact abs_nonneg (z - x)
    · rw [min_eq_right hxh, max_eq_right (by linarith : lo ≤ hi),
        abs_of_nonpos (by linarith), abs_of_nonpos (by linarith)]
      linarith

/-- **C9**. `createElement` fails exactly when a non-null `parentId` does
not resolve to a stored element, and this is the only hard failure:
`moveWithDescendants` and the custom resize are total — an unknown element
id leaves the store unchanged (and the resize computation returns
nothing) — and a move blocked by the boundary is resolved by clamping to
the nearest permissible position. -/
theorem error_handling_spec :
    (∀ (objects : List Elem) (id : ℕ) (parentId : Option ℕ) (props : ElemProps),
      (∃ err, createElement objects id parentId props = .error err) ↔
      (∃ pid, parentId = some pid ∧
        objects.find? (fun o => o.id == pid) = none)) ∧
    (∀ (objects : List Elem) (tid : ℕ) (dx dy : ℚ),
      objects.find? (fun o => o.id == tid) = none →
      moveWithDescendants objects tid dx dy = objects) ∧
    (∀ (objects : List Elem) (oid : ℕ) (sd : Dims) (h : Handle) (sp p : ℚ × ℚ),
      objects.find? (fun o => o.id == oid) = none →
      updateCustomResize objects oid sd h sp p = none ∧
      commitCustomResize objects oid sd h sp p = objects) ∧
    (∀ (objects : List Elem) (t : Elem) (dx z : ℚ),
      t.stayWithinParent = true →
      (getBoundaryConstraints t objects).minLeft ≤ z →
      z ≤ (getBoundaryConstraints t objects).maxRight - t.width →
      |constrainedLeft objects t dx - (t.left + dx)| ≤ |z - (t.left + dx)|) := by
  refine ⟨?_, ?_, ?_, ?_⟩
  · intro objects id parentId props
    cases parentId with
    | none =>
      simp only [createElement, Option.none_bind]
      constructor
      · rintro ⟨err, herr⟩
        cases herr
      · rintro ⟨pid, hpid, -⟩
        cases hpid
    | some pid =>
      cases hfind : objects.find? (fun o => o.id == pid) with
      | none =>
        constructor
        · intro h2
          exact ⟨pid, rfl, hfind⟩
        · intro h2
          refine ⟨.parentNotFound, ?_⟩
          simp only [createElement, Option.some_bind, hfind]
      | some parent =>
        simp only [createElement, Option.some_bind, hfind]
        constructor
        · rintro ⟨err, herr⟩
          cases herr
        · rintro ⟨pid2, hpid2, hn2⟩
          rw [Option.some.inj hpid2] at hfind
          rw [hfind] at hn2
          cases hn2
  · intro objects tid dx dy hfind
    simp only [moveWithDescendants, hfind]
  · intro objects oid sd h sp p hfind
    constructor
    · simp only [updateCustomResize, hfind]
    · simp only [commitCustomResize, updateCustomResize, hfind]
  · intro objects t dx z hsw h1 h2
    rw [constrainedLeft, hsw]
    simp only [if_true]
    exact clamp_nearest h1 h2

/-- Witness for **C9**: creating a child under an unknown parent id fails,
and moving an unknown id on the demo store is a no-op. -/
theorem error_handling_spec_witness :
    (∃ err, createElement chainStore 9 (some 77) ⟨none, none⟩ = .error err) ∧
    moveWithDescendants chainStore 77 5 5 = chainStore :=
  ⟨(error_handling_spec.1 chainStore 9 (some 77) ⟨none, none⟩).mpr
    ⟨77, rfl, by decide⟩,
   error_handling_spec.2.1 chainStore 77 5 5 (by decide)⟩

/-- **C6**. A committed resize of one element changes only that element's
entry: every other element of the store — in particular every child of
the resize target — keeps exactly its position and size, and the target
itself receives exactly the constrained dimensions. -/
theorem resize_frame_effect (objects : List Elem)
    (hn : (objects.map (fun o => o.id)).Nodup) (oid : ℕ) (sd : Dims)
    (h : Handle) (sp p : ℚ × ℚ) :
    (∀ o ∈ objects, o.id ≠ oid →
      (commitCustomResize objects oid sd h sp p).find? (fun u => u.id == o.id) =
        some o) ∧
    (∀ o ∈ objects, o.id = oid → ∀ d,
      updateCustomResize objects oid sd h sp p = some d →
      (commitCustomResize objects oid sd h sp p).find? (fun u => u.id == o.id) =
        some { o with left := d.left, top := d.top, width := d.width,
                      height := d.height }) := by
  constructor
  · intro o ho hne
    cases hu : updateCustomResize objects oid sd h sp p with
    | none =>
      simp only [commitCustomResize, hu]
      exact find_id_eq_some_of_mem hn ho
    | some d =>
      simp only [commitCustomResize, hu, endCustomResize]
      rw [find_map_update hn ho _ (fun u => by split <;> rfl)]
      have hcond : ¬ (o.id == oid) = true := by
        simpa using hne
      rw [if_neg hcond]
  · intro o ho heq d hu
    simp only [commitCustomResize, hu, endCustomResize]
    rw [find_map_update hn ho _ (fun u => by split <;> rfl)]
    have hcond : (o.id == oid) = true := by simpa using heq
    rw [if_pos hcond]

/-- Witness for **C6**: a bottom-right resize of the demo root leaves the
grandchild's store entry untouched. -/
theorem resize_frame_effect_witness :
    (commitCustomResize chainStore 1 ⟨100, 100, 300, 200⟩ Handle.br (0, 0)
      (10, 10)).find? (fun u => u.id == 3) =
      some (chainStore.get ⟨2, by norm_num [chainStore]⟩) :=
  (resize_frame_effect chainStore (by decide) 1 ⟨100, 100, 300, 200⟩ Handle.br
    (0, 0) (10, 10)).1 (chainStore.get ⟨2, by norm_num [chainStore]⟩)
    (by simp [chainStore]) (by decide)


/-! #### Resize clamping, axis by axis -/

theorem ite_clampLow_le (v c : ℚ) : (if v > c then c else v) ≤ c := by
  by_cases h : v > c
  · rw [if_pos h]
  · rw [if_neg h]
    linarith

theorem ite_max_ge (v0 sLo cR : ℚ) :
    cR ≤ sLo + (if sLo + v0 < cR then cR - sLo else v0) := by
  by_cases h : sLo + v0 < cR
  · rw [if_pos h]
    linarith
  · rw [if_neg h]
    linarith

theorem dragLow_ok (lo sLo sLen v : ℚ) (hlo : lo ≤ sLo) (hsz : 20 ≤ sLen) :
    lo ≤ (if sLo + sLen - max lo v < 20 then (sLo + sLen - 20, (20 : ℚ))
        else (max lo v, sLo + sLen - max lo v)).1 ∧
    20 ≤ (if sLo + sLen - max lo v < 20 then (sLo + sLen - 20, (20 : ℚ))
        else (max lo v, sLo + sLen - max lo v)).2 ∧
    (if sLo + sLen - max lo v < 20 then (sLo + sLen - 20, (20 : ℚ))
        else (max lo v, sLo + sLen - max lo v)).1 +
      (if sLo + sLen - max lo v < 20 then (sLo + sLen - 20, (20 : ℚ))
        else (max lo v, sLo + sLen - max lo v)).2 = sLo + sLen := by
  by_cases hc : sLo + sLen - max lo v < 20
  · rw [if_pos hc]
    refine ⟨by dsimp only; linarith, by dsimp only; linarith, by dsimp only; ring⟩
  · rw [if_neg hc]
    exact ⟨le_max_left lo v, by dsimp only; linarith, by dsimp only; ring⟩

theorem dragLow_child (lo sLo sLen v c : ℚ) (hvc : v ≤ c) (hlc : lo ≤ c) :
    (if sLo + sLen - max lo v < 20 then (sLo + sLen - 20, (20 : ℚ))
        else (max lo v, sLo + sLen - max lo v)).1 ≤ c := by
  have hmax : max lo v ≤ c := max_le hlc hvc
  by_cases hc2 : sLo + sLen - max lo v < 20
  · rw [if_pos hc2]
    dsimp only
    linarith
  · rw [if_neg hc2]
    exact hmax

theorem dragHigh_ok (hi sLo w1 : ℚ) (hroom : sLo + 20 ≤ hi) :
    20 ≤ max 20 (min (max 20 w1) (hi - sLo)) ∧
    sLo + max 20 (min (max 20 w1) (hi - sLo)) ≤ hi := by
  refine ⟨le_max_left 20 _, ?_⟩
  have h1 : min (max 20 w1) (hi - sLo) ≤ hi - sLo := min_le_right _ _
  rcases max_cases (20 : ℚ) (min (max 20 w1) (hi - sLo)) with ⟨heq, h⟩ | ⟨heq, h⟩ <;>
    rw [heq] <;> linarith

theorem dragHigh_child (hi sLo w1 c : ℚ) (hc1 : c ≤ sLo + w1) (hc2 : c ≤ hi) :
    c ≤ sLo + max 20 (min (max 20 w1) (hi - sLo)) := by
  have h1 : c - sLo ≤ max 20 w1 := le_trans (by linarith) (le_max_right 20 w1)
  have h3 : c - sLo ≤ min (max 20 w1) (hi - sLo) := le_min h1 (by linarith)
  have h4 := le_max_right (20 : ℚ) (min (max 20 w1) (hi - sLo))
  linarith

/-- **C5**. For every resize handle, `updateCustomResize` clamps the
target's rectangle so that — starting from an at-rest rectangle within
its boundary envelope that respects the 20-unit minimum size and contains
its children's bounding box — the result stays inside the boundary
envelope available from `getBoundaryConstraints`, never drops below the
20×20 minimum size, and still contains the children's bounding box (the
per-axis minimum) whenever children exist. -/
theorem resize_bounds (objects : List Elem) (oid : ℕ) (obj : Elem)
    (hfind : objects.find? (fun o => o.id == oid) = some obj)
    (sd : Dims) (handle : Handle) (sp ptr : ℚ × ℚ)
    (hb1 : (getBoundaryConstraints obj objects).minLeft ≤ sd.left)
    (hb2 : sd.left + sd.width ≤ (getBoundaryConstraints obj objects).maxRight)
    (hb3 : (getBoundaryConstraints obj objects).minTop ≤ sd.top)
    (hb4 : sd.top + sd.height ≤ (getBoundaryConstraints obj objects).maxBottom)
    (hw : 20 ≤ sd.width) (hh : 20 ≤ sd.height)
    (hcb : ∀ cb, getChildrenBoundingBox oid objects = some cb →
      sd.left ≤ cb.minLeft ∧ sd.top ≤ cb.minTop ∧
      cb.maxRight ≤ sd.left + sd.width ∧ cb.maxBottom ≤ sd.top + sd.height) :
    ∀ d, updateCustomResize objects oid sd handle sp ptr = some d →
      (getBoundaryConstraints obj objects).minLeft ≤ d.left ∧
      (getBoundaryConstraints obj objects).minTop ≤ d.top ∧
      d.left + d.width ≤ (getBoundaryConstraints obj objects).maxRight ∧
      d.top + d.height ≤ (getBoundaryConstraints obj objects).maxBottom ∧
      20 ≤ d.width ∧ 20 ≤ d.height ∧
      (∀ cb2, getChildrenBoundingBox oid objects = some cb2 →
        d.left ≤ cb2.minLeft ∧ d.top ≤ cb2.minTop ∧
        cb2.maxRight ≤ d.left + d.width ∧
        cb2.maxBottom ≤ d.top + d.height) := by
  intro d hd
  cases hcbv : getChildrenBoundingBox oid objects with
  | none =>
    cases handle with
    | tl =>
      simp only [updateCustomResize, hfind, hcbv] at hd
      obtain rfl := Option.some.inj hd
      refine ⟨?_, ?_, ?_, ?_, ?_, ?_, fun cb2 h2 => ?_⟩
      · dsimp only
        exact (dragLow_ok _ _ _ _ hb1 hw).1
      · dsimp only
        exact (dragLow_ok _ _ _ _ hb3 hh).1
      · dsimp only
        exact le_of_eq_of_le (dragLow_ok _ _ _ _ hb1 hw).2.2 hb2
      · dsimp only
        exact le_of_eq_of_le (dragLow_ok _ _ _ _ hb3 hh).2.2 hb4
      · dsimp only
        exact (dragLow_ok _ _ _ _ hb1 hw).2.1
      · dsimp only
        exact (dragLow_ok _ _ _ _ hb3 hh).2.1
      · exact Option.noConfusion h2
    | tr =>
      simp only [updateCustomResize, hfind, hcbv] at hd
      obtain rfl := Option.some.inj hd
      refine ⟨?_, ?_, ?_, ?_, ?_, ?_, fun cb2 h2 => ?_⟩
      · dsimp only
        exact hb1
      · dsimp only
        exact (dragLow_ok _ _ _ _ hb3 hh).1
      · dsimp only
        exact (dragHigh_ok _ _ _ (by linarith)).2
      · dsimp only
        exact le_of_eq_of_le (dragLow_ok _ _ _ _ hb3 hh).2.2 hb4
      · dsimp only
        exact (dragHigh_ok _ _ _ (by linarith)).1
      · dsimp only
        exact (dragLow_ok _ _ _ _ hb3 hh).2.1
      · exact Option.noConfusion h2
    | bl =>
      simp only [updateCustomResize, hfind, hcbv] at hd
      obtain rfl := Option.some.inj hd
      refine ⟨?_, ?_, ?_, ?_, ?_, ?_, fun cb2 h2 => ?_⟩
      · dsimp only
        exact (dragLow_ok _ _ _ _ hb1 hw).1
      · dsimp only
        exact hb3
      · dsimp only
        exact le_of_eq_of_le (dragLow_ok _ _ _ _ hb1 hw).2.2 hb2
      · dsimp only
        exact (dragHigh_ok _ _ _ (by linarith)).2
      · dsimp only
        exact (dragLow_ok _ _ _ _ hb1 hw).2.1
      · dsimp only
        exact (dragHigh_ok _ _ _ (by linarith)).1
      · exact Option.noConfusion h2
    | br =>
      simp only [updateCustomResize, hfind, hcbv] at hd
      obtain rfl := Option.some.inj hd
      refine ⟨?_, ?_, ?_, ?_, ?_, ?_, fun cb2 h2 => ?_⟩
      · dsimp only
        exact hb1
      · dsimp only
        exact hb3
      · dsimp only
        exact (dragHigh_ok _ _ _ (by linarith)).2
      · dsimp only
        exact (dragHigh_ok _ _ _ (by linarith)).2
      · dsimp only
        exact (dragHigh_ok _ _ _ (by linarith)).1
      · dsimp only
        exact (dragHigh_ok _ _ _ (by linarith)).1
      · exact Option.noConfusion h2
    | ml =>
      simp only [updateCustomResize, hfind, hcbv] at hd
      obtain rfl := Option.some.inj hd
      refine ⟨?_, ?_, ?_, ?_, ?_, ?_, fun cb2 h2 => ?_⟩
      · dsimp only
        exact (dragLow_ok _ _ _ _ hb1 hw).1
      · dsimp only
        exact hb3
      · dsimp only
        exact le_of_eq_of_le (dragLow_ok _ _ _ _ hb1 hw).2.2 hb2
      · dsimp only
        rw [max_eq_right hh]
        exact hb4
      · dsimp only
        exact (dragLow_ok _ _ _ _ hb1 hw).2.1
      · dsimp only
        exact le_max_left 20 _
      · exact Option.noConfusion h2
    | mr =>
      simp only [updateCustomResize, hfind, hcbv] at hd
      obtain rfl := Option.some.inj hd
      refine ⟨?_, ?_, ?_, ?_, ?_, ?_, fun cb2 h2 => ?_⟩
      · dsimp only
        exact hb1
      · dsimp only
        exact hb3
      · dsimp only
        exact (dragHigh_ok _ _ _ (by linarith)).2
      · dsimp only
        rw [max_eq_right hh]
        exact hb4
      · dsimp only
        exact (dragHigh_ok _ _ _ (by linarith)).1
      · dsimp only
        exact le_max_left 20 _
      · exact Option.noConfusion h2
    | mt =>
      simp only [updateCustomResize, hfind, hcbv] at hd
      obtain rfl := Option.some.inj hd
      refine ⟨?_, ?_, ?_, ?_, ?_, ?_, fun cb2 h2 => ?_⟩
      · dsimp only
        exact hb1
      · dsimp only
        exact (dragLow_ok _ _ _ _ hb3 hh).1
      · dsimp only
        rw [max_eq_right hw]
        exact hb2
      · dsimp only
        exact le_of_eq_of_le (dragLow_ok _ _ _ _ hb3 hh).2.2 hb4
      · dsimp only
        exact le_max_left 20 _
      · dsimp only
        exact (dragLow_ok _ _ _ _ hb3 hh).2.1
      · exact Option.noConfusion h2
    | mb =>
      simp only [updateCustomResize, hfind, hcbv] at hd
      obtain rfl := Option.some.inj hd
      refine ⟨?_, ?_, ?_, ?_, ?_, ?_, fun cb2 h2 => ?_⟩
      · dsimp only
        exact hb1
      · dsimp only
        exact hb3
      · dsimp only
        rw [max_eq_right hw]
        exact hb2
      · dsimp only
        exact (dragHigh_ok _ _ _ (by linarith)).2
      · dsimp only
        exact le_max_left 20 _
      · dsimp only
        exact (dragHigh_ok _ _ _ (by linarith)).1
      · exact Option.noConfusion h2
  | some cb =>
    cases handle with
    | tl =>
      simp only [updateCustomResize, hfind, hcbv] at hd
      obtain rfl := Option.some.inj hd
      obtain ⟨hc1, hc2, hc3, hc4⟩ := hcb cb hcbv
      refine ⟨?_, ?_, ?_, ?_, ?_, ?_, fun cb2 h2 => ?_⟩
      · dsimp only
        exact (dragLow_ok _ _ _ _ hb1 hw).1
      · dsimp only
        exact (dragLow_ok _ _ _ _ hb3 hh).1
      · dsimp only
        exact le_of_eq_of_le (dragLow_ok _ _ _ _ hb1 hw).2.2 hb2
      · dsimp only
        exact le_of_eq_of_le (dragLow_ok _ _ _ _ hb3 hh).2.2 hb4
      · dsimp only
        exact (dragLow_ok _ _ _ _ hb1 hw).2.1
      · dsimp only
        exact (dragLow_ok _ _ _ _ hb3 hh).2.1
      · obtain rfl := Option.some.inj h2
        refine ⟨?_, ?_, ?_, ?_⟩
        · dsimp only
          exact dragLow_child _ _ _ _ _ (ite_clampLow_le _ _) (by linarith)
        · dsimp only
          exact dragLow_child _ _ _ _ _ (ite_clampLow_le _ _) (by linarith)
        · dsimp only
          exact le_of_le_of_eq (by linarith) (dragLow_ok _ _ _ _ hb1 hw).2.2.symm
        · dsimp only
          exact le_of_le_of_eq (by linarith) (dragLow_ok _ _ _ _ hb3 hh).2.2.symm
    | tr =>
      simp only [updateCustomResize, hfind, hcbv] at hd
      obtain rfl := Option.some.inj hd
      obtain ⟨hc1, hc2, hc3, hc4⟩ := hcb cb hcbv
      refine ⟨?_, ?_, ?_, ?_, ?_, ?_, fun cb2 h2 => ?_⟩
      · dsimp only
        exact hb1
      · dsimp only
        exact (dragLow_ok _ _ _ _ hb3 hh).1
      · dsimp only
        exact (dragHigh_ok _ _ _ (by linarith)).2
      · dsimp only
        exact le_of_eq_of_le (dragLow_ok _ _ _ _ hb3 hh).2.2 hb4
      · dsimp only
        exact (dragHigh_ok _ _ _ (by linarith)).1
      · dsimp only
        exact (dragLow_ok _ _ _ _ hb3 hh).2.1
      · obtain rfl := Option.some.inj h2
        refine ⟨?_, ?_, ?_, ?_⟩
        · dsimp only
          exact hc1
        · dsimp only
          exact dragLow_child _ _ _ _ _ (ite_clampLow_le _ _) (by linarith)
        · dsimp only
          exact dragHigh_child _ _ _ _ (ite_max_ge _ _ _) (by linarith)
        · dsimp only
          exact le_of_le_of_eq (by linarith) (dragLow_ok _ _ _ _ hb3 hh).2.2.symm
    | bl =>
      simp only [updateCustomResize, hfind, hcbv] at hd
      obtain rfl := Option.some.inj hd
      obtain ⟨hc1, hc2, hc3, hc4⟩ := hcb cb hcbv
      refine ⟨?_, ?_, ?_, ?_, ?_, ?_, fun cb2 h2 => ?_⟩
      · dsimp only
        exact (dragLow_ok _ _ _ _ hb1 hw).1
      · dsimp only
        exact hb3
      · dsimp only
        exact le_of_eq_of_le (dragLow_ok _ _ _ _ hb1 hw).2.2 hb2
      · dsimp only
        exact (dragHigh_ok _ _ _ (by linarith)).2
      · dsimp only
        exact (dragLow_ok _ _ _ _ hb1 hw).2.1
      · dsimp only
        exact (dragHigh_ok _ _ _ (by linarith)).1
      · obtain rfl := Option.some.inj h2
        refine ⟨?_, ?_, ?_, ?_⟩
        · dsimp only
          exact dragLow_child _ _ _ _ _ (ite_clampLow_le _ _) (by linarith)
        · dsimp only
          exact hc2
        · dsimp only
          exact le_of_le_of_eq (by linarith) (dragLow_ok _ _ _ _ hb1 hw).2.2.symm
        · dsimp only
          exact dragHigh_child _ _ _ _ (ite_max_ge _ _ _) (by linarith)
    | br =>
      simp only [updateCustomResize, hfind, hcbv] at hd
      obtain rfl := Option.some.inj hd
      obtain ⟨hc1, hc2, hc3, hc4⟩ := hcb cb hcbv
      refine ⟨?_, ?_, ?_, ?_, ?_, ?_, fun cb2 h2 => ?_⟩
      · dsimp only
        exact hb1
      · dsimp only
        exact hb3
      · dsimp only
        exact (dragHigh_ok _ _ _ (by linarith)).2
      · dsimp only
        exact (dragHigh_ok _ _ _ (by linarith)).2
      · dsimp only
        exact (dragHigh_ok _ _ _ (by linarith)).1
      · dsimp only
        exact (dragHigh_ok _ _ _ (by linarith)).1
      · obtain rfl := Option.some.inj h2
        refine ⟨?_, ?_, ?_, ?_⟩
        · dsimp only
          exact hc1
        · dsimp only
          exact hc2
        · dsimp only
          exact dragHigh_child _ _ _ _ (ite_max_ge _ _ _) (by linarith)
        · dsimp only
          exact dragHigh_child _ _ _ _ (ite_max_ge _ _ _) (by linarith)
    | ml =>
      simp only [updateCustomResize, hfind, hcbv] at hd
      obtain rfl := Option.some.inj hd
      obtain ⟨hc1, hc2, hc3, hc4⟩ := hcb cb hcbv
      refine ⟨?_, ?_, ?_, ?_, ?_, ?_, fun cb2 h2 => ?_⟩
      · dsimp only
        exact (dragLow_ok _ _ _ _ hb1 hw).1
      · dsimp only
        exact hb3
      · dsimp only
        exact le_of_eq_of_le (dragLow_ok _ _ _ _ hb1 hw).2.2 hb2
      · dsimp only
        rw [max_eq_right hh]
        exact hb4
      · dsimp only
        exact (dragLow_ok _ _ _ _ hb1 hw).2.1
      · dsimp only
        exact le_max_left 20 _
      · obtain rfl := Option.some.inj h2
        refine ⟨?_, ?_, ?_, ?_⟩
        · dsimp only
          exact dragLow_child _ _ _ _ _ (ite_clampLow_le _ _) (by linarith)
        · dsimp only
          exact hc2
        · dsimp only
          exact le_of_le_of_eq (by linarith) (dragLow_ok _ _ _ _ hb1 hw).2.2.symm
        · dsimp only
          rw [max_eq_right hh]
          exact hc4
    | mr =>
      simp only [updateCustomResize, hfind, hcbv] at hd
      obtain rfl := Option.some.inj hd
      obtain ⟨hc1, hc2, hc3, hc4⟩ := hcb cb hcbv
      refine ⟨?_, ?_, ?_, ?_, ?_, ?_, fun cb2 h2 => ?_⟩
      · dsimp only
        exact hb1
      · dsimp only
        exact hb3
      · dsimp only
        exact (dragHigh_ok _ _ _ (by linarith)).2
      · dsimp only
        rw [max_eq_right hh]
        exact hb4
      · dsimp only
        exact (dragHigh_ok _ _ _ (by linarith)).1
      · dsimp only
        exact le_max_left 20 _
      · obtain rfl := Option.some.inj h2
        refine ⟨?_, ?_, ?_, ?_⟩
        · dsimp only
          exact hc1
        · dsimp only
          exact hc2
        · dsimp only
          exact dragHigh_child _ _ _ _ (ite_max_ge _ _ _) (by linarith)
        · dsimp only
          rw [max_eq_right hh]
          exact hc4
    | mt =>
      simp only [updateCustomResize, hfind, hcbv] at hd
      obtain rfl := Option.some.inj hd
      obtain ⟨hc1, hc2, hc3, hc4⟩ := hcb cb hcbv
      refine ⟨?_, ?_, ?_, ?_, ?_, ?_, fun cb2 h2 => ?_⟩
      · dsimp only
        exact hb1
      · dsimp only
        exact (dragLow_ok _ _ _ _ hb3 hh).1
      · dsimp only
        rw [max_eq_right hw]
        exact hb2
      · dsimp only
        exact le_of_eq_of_le (dragLow_ok _ _ _ _ hb3 hh).2.2 hb4
      · dsimp only
        exact le_max_left 20 _
      · dsimp only
        exact (dragLow_ok _ _ _ _ hb3 hh).2.1
      · obtain rfl := Option.some.inj h2
        refine ⟨?_, ?_, ?_, ?_⟩
        · dsimp only
          exact hc1
        · dsimp only
          exact dragLow_child _ _ _ _ _ (ite_clampLow_le _ _) (by linarith)
        · dsimp only
          rw [max_eq_right hw]
          exact hc3
        · dsimp only
          exact le_of_le_of_eq (by linarith) (dragLow_ok _ _ _ _ hb3 hh).2.2.symm
    | mb =>
      simp only [updateCustomResize, hfind, hcbv] at hd
      obtain rfl := Option.some.inj hd
      obtain ⟨hc1, hc2, hc3, hc4⟩ := hcb cb hcbv
      refine ⟨?_, ?_, ?_, ?_, ?_, ?_, fun cb2 h2 => ?_⟩
      · dsimp only
        exact hb1
      · dsimp only
        exact hb3
      · dsimp only
        rw [max_eq_right hw]
        exact hb2
      · dsimp only
        exact (dragHigh_ok _ _ _ (by linarith)).2
      · dsimp only
        exact le_max_left 20 _
      · dsimp only
        exact (dragHigh_ok _ _ _ (by linarith)).1
      · obtain rfl := Option.some.inj h2
        refine ⟨?_, ?_, ?_, ?_⟩
        · dsimp only
          exact hc1
        · dsimp only
          exact hc2
        · dsimp only
          rw [max_eq_right hw]
          exact hc3
        · dsimp only
          exact dragHigh_child _ _ _ _ (ite_max_ge _ _ _) (by linarith)


/-- Witness for **C5**: a bottom-right resize of the demo root by
(+10, +10) grows it to 310×210, inside the canvas and containing its
child. -/
theorem resize_bounds_witness :
    updateCustomResize chainStore 1 ⟨100, 100, 300, 200⟩ Handle.br (0, 0) (10, 10) =
      some ⟨100, 100, 310, 210⟩ ∧
    (20 : ℚ) ≤ (⟨100, 100, 310, 210⟩ : Dims).width := by
  have hcbeq : getChildrenBoundingBox 1 chainStore =
      some ⟨120, 120, 120 + 150, 120 + 100⟩ := rfl
  have heval : updateCustomResize chainStore 1 ⟨100, 100, 300, 200⟩ Handle.br
      (0, 0) (10, 10) = some ⟨100, 100, 310, 210⟩ := by
    rw [show updateCustomResize chainStore 1 ⟨100, 100, 300, 200⟩ Handle.br
        (0, 0) (10, 10) =
      some ⟨100, 100,
        max 20 (min (max 20 (if (100 : ℚ) + (300 + (10 - 0)) < 120 + 150
            then (120 + 150) - 100 else 300 + (10 - 0))) (800 - 100)),
        max 20 (min (max 20 (if (100 : ℚ) + (200 + (10 - 0)) < 120 + 100
            then (120 + 100) - 100 else 200 + (10 - 0))) (600 - 100))⟩ from rfl]
    norm_num
  refine ⟨heval, ?_⟩
  have h := resize_bounds chainStore 1
    { id := 1, parentId := none, left := 100, top := 100, width := 300,
      height := 200, depth := 0, zIndex := 1, stayWithinParent := true,
      selected := false } rfl ⟨100, 100, 300, 200⟩ Handle.br (0, 0) (10, 10)
    (by rw [show getBoundaryConstraints
        { id := 1, parentId := none, left := 100, top := 100, width := 300,
          height := 200, depth := 0, zIndex := 1, stayWithinParent := true,
          selected := false } chainStore =
        { minLeft := 0, minTop := 0, maxRight := 800, maxBottom := 600 } from rfl]; norm_num)
    (by rw [show getBoundaryConstraints
        { id := 1, parentId := none, left := 100, top := 100, width := 300,
          height := 200, depth := 0, zIndex := 1, stayWithinParent := true,
          selected := false } chainStore =
        { minLeft := 0, minTop := 0, maxRight := 800, maxBottom := 600 } from rfl]; norm_num)
    (by rw [show getBoundaryConstraints
        { id := 1, parentId := none, left := 100, top := 100, width := 300,
          height := 200, depth := 0, zIndex := 1, stayWithinParent := true,
          selected := false } chainStore =
        { minLeft := 0, minTop := 0, maxRight := 800, maxBottom := 600 } from rfl]; norm_num)
    (by rw [show getBoundaryConstraints
        { id := 1, parentId := none, left := 100, top := 100, width := 300,
          height := 200, depth := 0, zIndex := 1, stayWithinParent := true,
          selected := false } chainStore =
        { minLeft := 0, minTop := 0, maxRight := 800, maxBottom := 600 } from rfl]; norm_num)
    (by norm_num) (by norm_num)
    (by
      intro cb h2
      rw [hcbeq] at h2
      obtain rfl := Option.some.inj h2
      refine ⟨?_, ?_, ?_, ?_⟩ <;> norm_num)
    ⟨100, 100, 310, 210⟩ heval
  exact h.2.2.2.2.1


end CanvasEditor
